import Mathlib

/-!
Verification of the email de-identification core (section extraction, offset
mapping, annotation repair, reassembly) against its natural-language
specification.

Python strings are sequences of Unicode scalar values, modelled as `List Char`
(Lean `Char` is exactly a Unicode scalar value).  Byte strings are modelled as
`List Nat` with entries below 256.  Machine integers are modelled as `Int`
(Python integers are unbounded, so no wraparound is involved).
-/

set_option autoImplicit false

namespace EmailDeid

/-- Model of a Python `str`: a sequence of Unicode scalar values. -/
abbrev PyStr := List Char

/-- Model of a Python `bytes` value: a list of byte values (each < 256). -/
abbrev PyBytes := List Nat

/-- Python `s.replace("\r", "")`: remove every carriage return. -/
def stripCR (s : PyStr) : PyStr := s.filter (fun c => c ≠ '\r')

/-- Normalisation of one Python slice bound against a string of length `len`:
negative bounds count from the end and clamp at 0, non-negative bounds clamp
at `len`.  This is CPython's `PySlice_AdjustIndices` for step 1. -/
def pyBound (len : Nat) (i : Int) : Nat :=
  if i < 0 then ((len : Int) + i).toNat else min i.toNat len

/-- Python codepoint slicing `s[a:b]` for arbitrary integer bounds. -/
def pySlice (s : PyStr) (a b : Int) : PyStr :=
  (s.take (pyBound s.length b)).drop (pyBound s.length a)

/-- Python codepoint slicing `s[a:b]` for natural-number bounds (the common
case in the claims); `take`/`drop` clamp exactly as Python does. -/
def pySliceNat (s : PyStr) (a b : Nat) : PyStr := (s.take b).drop a

/-!
## UTF-16 offset conversion
Source: `annotations/management/commands/fix_utf16_offsets.py`.
-/

/-- Number of UTF-16 code units a character occupies: 2 above U+FFFF
(surrogate pair), otherwise 1.  Source line 40: `2 if ord(ch) > 0xFFFF else 1`. -/
def charUnits (c : Char) : Nat := if 0xFFFF < c.toNat then 2 else 1

/-- UTF-16 length of a string: accumulated code-unit count. -/
def u16len (s : PyStr) : Nat := (s.map charUnits).sum

/-- Loop of `_utf16_offset_to_codepoint` (source lines 36-44): `u16pos` is the
accumulated UTF-16 position, `cp` the current codepoint index.  The loop
returns `cp` as soon as `u16pos >= offset`; after the loop, the end of the
string is returned when `u16pos == offset`, and `None` otherwise. -/
def utf16Aux : PyStr → Nat → Nat → Nat → Option Nat
  | [], u16pos, cp, off => if u16pos = off then some cp else none
  | c :: rest, u16pos, cp, off =>
      if off ≤ u16pos then some cp
      else utf16Aux rest (u16pos + charUnits c) (cp + 1) off

/-- Convert a UTF-16 code-unit offset to a codepoint offset
(`_utf16_offset_to_codepoint`, source lines 28-44).  Offsets stored in the
database are non-negative, so the offset is modelled as `Nat`. -/
def utf16OffsetToCodepoint (text : PyStr) (utf16Offset : Nat) : Option Nat :=
  utf16Aux text 0 0 utf16Offset

/-- Model of `_try_fix` (fix_utf16_offsets.py lines 47-67): convert both
offsets; `None` when either conversion fails; `(start, end, False)` when the
conversion is the identity; `(newStart, newEnd, True)` only after verifying
that the slice at the converted offsets equals the stored text. -/
def tryFix (sectionContent : PyStr) (startOffset endOffset : Nat)
    (originalText : PyStr) : Option (Nat × Nat × Bool) :=
  match utf16OffsetToCodepoint sectionContent startOffset,
        utf16OffsetToCodepoint sectionContent endOffset with
  | some newStart, some newEnd =>
      if newStart = startOffset ∧ newEnd = endOffset then
        some (startOffset, endOffset, false)
      else if pySliceNat sectionContent newStart newEnd = originalText then
        some (newStart, newEnd, true)
      else none
  | some _, none => none
  | none, _ => none

/-!
## Whitespace trimming
Source: `annotations/management/commands/trim_annotation_whitespace.py`.
-/

/-- Test for the characters stripped by Python `str.strip()` with no argument
(CPython `Py_UNICODE_ISSPACE`). -/
def isPySpace (c : Char) : Bool :=
  (0x9 ≤ c.toNat && c.toNat ≤ 0xD) || (0x1C ≤ c.toNat && c.toNat ≤ 0x1F) ||
  c.toNat == 0x20 || c.toNat == 0x85 || c.toNat == 0xA0 || c.toNat == 0x1680 ||
  (0x2000 ≤ c.toNat && c.toNat ≤ 0x200A) || c.toNat == 0x2028 ||
  c.toNat == 0x2029 || c.toNat == 0x202F || c.toNat == 0x205F ||
  c.toNat == 0x3000

/-- Python `s.lstrip()`. -/
def pyLStrip (s : PyStr) : PyStr := s.dropWhile isPySpace

/-- Python `s.rstrip()`. -/
def pyRStrip (s : PyStr) : PyStr := (s.reverse.dropWhile isPySpace).reverse

/-- Python `s.strip()`. -/
def pyStrip (s : PyStr) : PyStr := pyRStrip (pyLStrip s)

/-- Model of `_trim_whitespace` (trim_annotation_whitespace.py lines 27-41).
Offsets are `Int` because `end_offset - trailing` is computed with Python
integer subtraction.  Returns `none` for a nonempty all-whitespace text, and
otherwise the (possibly) trimmed text with adjusted offsets and a change flag. -/
def trimWhitespace (originalText : PyStr) (startOffset endOffset : Int) :
    Option (PyStr × Int × Int × Bool) :=
  let stripped := pyStrip originalText
  if stripped = originalText then some (originalText, startOffset, endOffset, false)
  else if stripped = [] then none
  else
    let leading : Int := (originalText.length : Int) - ((pyLStrip originalText).length : Int)
    let trailing : Int := (originalText.length : Int) - ((pyRStrip originalText).length : Int)
    some (stripped, startOffset + leading, endOffset - trailing, true)

/-- One annotation record's processing in the trim command
(`Command._fix_annotations`, trim_annotation_whitespace.py lines 160-224),
restricted to the decision of whether a change is applied: the command applies
`(newText, newStart, newEnd)` to the record exactly when `_trim_whitespace`
reports a change and the slice of the section content at the new offsets
equals the trimmed text; otherwise the record is left untouched. -/
def trimFixStep (sectionContent : PyStr) (originalText : PyStr)
    (startOffset endOffset : Int) : Option (PyStr × Int × Int) :=
  match trimWhitespace originalText startOffset endOffset with
  | none => none
  | some (newText, newStart, newEnd, wasChanged) =>
      if wasChanged then
        if pySlice sectionContent newStart newEnd = newText then
          some (newText, newStart, newEnd)
        else none
      else none

/-!
## Header extraction
Source: `core/section_extractor.py`.
-/

/-- Test whether `pat` occurs in `s` at position `p` (Python substring match
at a fixed index). -/
def matchAt (s pat : PyStr) (p : Nat) : Bool := (s.drop p).take pat.length == pat

/-- Python `s.find(pat)`: index of the first occurrence, `None` (for `-1`)
when absent. -/
def pyFind : PyStr → PyStr → Option Nat
  | [], pat => if pat = [] then some 0 else none
  | c :: rest, pat =>
      if matchAt (c :: rest) pat 0 then some 0
      else (pyFind rest pat).map (· + 1)

/-- Model of `_extract_headers` (section_extractor.py lines 60-68): try the
separator `"\r\n\r\n"` first, then `"\n\n"`; return the prefix before the
first occurrence of the separator that was found, with `\r` stripped; if
neither occurs, the whole content with `\r` stripped. -/
def extractHeaders (raw : PyStr) : PyStr :=
  match pyFind raw (("\r\n\r\n").toList) with
  | some pos => stripCR (raw.take pos)
  | none =>
      match pyFind raw (("\n\n").toList) with
      | some pos => stripCR (raw.take pos)
      | none => stripCR raw

/-- Modelled from the spec words of C3 ("the first blank-line separator
(\r\n\r\n or \n\n, whichever occurs first in the string)"): the prefix before
the earliest occurrence of either separator, with `\r` removed.  Used only to
exhibit the divergence from the code, which prioritises `"\r\n\r\n"` even
when a `"\n\n"` occurs earlier. -/
def claimHeaders (raw : PyStr) : PyStr :=
  match pyFind raw (("\r\n\r\n").toList), pyFind raw (("\n\n").toList) with
  | some p, some q => stripCR (raw.take (min p q))
  | some p, none => stripCR (raw.take p)
  | none, some q => stripCR (raw.take q)
  | none, none => stripCR raw

/-!
## Text codecs
The source passes charset names to Python's codec machinery with
`errors="replace"`.  A resolved codec is modelled as a pair of total
functions (per-character encode, full decode); `utf-8` and `ascii` are
implemented concretely below.  Codec lookup failure (`LookupError`) is the
only unmodelled path — it cannot occur for a resolved codec value.
-/

/-- Model of a resolved Python text codec with `errors="replace"`:
`enc c` is `c.encode(cs, errors="replace")` for a single character and
`dec b` is `b.decode(cs, errors="replace")`.  Stateless codecs (utf-8,
ascii, latin-1, ...) encode strings character by character. -/
structure Codec where
  enc : Char → PyBytes
  dec : PyBytes → PyStr

/-- Python `text.encode(cs, errors="replace")` for a stateless codec. -/
def encStr (cs : Codec) (s : PyStr) : PyBytes := (s.map cs.enc).flatten

/-- Unicode replacement character U+FFFD produced by `errors="replace"`. -/
def replChar : Char := Char.ofNat 0xFFFD

/-- UTF-8 encoding of one scalar value (1-4 bytes). -/
def utf8EncodeChar (c : Char) : PyBytes :=
  let n := c.toNat
  if n < 0x80 then [n]
  else if n < 0x800 then [0xC0 + n / 0x40, 0x80 + n % 0x40]
  else if n < 0x10000 then
    [0xE0 + n / 0x1000, 0x80 + (n / 0x40) % 0x40, 0x80 + n % 0x40]
  else
    [0xF0 + n / 0x40000, 0x80 + (n / 0x1000) % 0x40,
     0x80 + (n / 0x40) % 0x40, 0x80 + n % 0x40]

/-- Test for a UTF-8 continuation byte (0x80-0xBF). -/
def contOk (b : Nat) : Bool := 0x80 ≤ b && b < 0xC0

/-- UTF-8 decoding with `errors="replace"`, following CPython's behaviour
(one U+FFFD per maximal subpart of an ill-formed sequence, surrogates and
overlong forms rejected). -/
def utf8DecodeReplace : PyBytes → PyStr
  | [] => []
  | b :: rest =>
    if b < 0x80 then Char.ofNat b :: utf8DecodeReplace rest
    else if b < 0xC2 then replChar :: utf8DecodeReplace rest
    else if b < 0xE0 then
      match rest with
      | [] => [replChar]
      | b2 :: rest2 =>
        if contOk b2 then
          Char.ofNat ((b - 0xC0) * 0x40 + (b2 - 0x80)) :: utf8DecodeReplace rest2
        else replChar :: utf8DecodeReplace (b2 :: rest2)
    else if b < 0xF0 then
      match rest with
      | [] => [replChar]
      | b2 :: rest2 =>
        if (if b = 0xE0 then 0xA0 else 0x80) ≤ b2 ∧
           b2 < (if b = 0xED then 0xA0 else 0xC0) then
          match rest2 with
          | [] => [replChar]
          | b3 :: rest3 =>
            if contOk b3 then
              Char.ofNat ((b - 0xE0) * 0x1000 + (b2 - 0x80) * 0x40 + (b3 - 0x80)) ::
                utf8DecodeReplace rest3
            else replChar :: utf8DecodeReplace (b3 :: rest3)
        else replChar :: utf8DecodeReplace (b2 :: rest2)
    else if b < 0xF5 then
      match rest with
      | [] => [replChar]
      | b2 :: rest2 =>
        if (if b = 0xF0 then 0x90 else 0x80) ≤ b2 ∧
           b2 < (if b = 0xF4 then 0x90 else 0xC0) then
          match rest2 with
          | [] => [replChar]
          | b3 :: rest3 =>
            if contOk b3 then
              match rest3 with
              | [] => [replChar]
              | b4 :: rest4 =>
                if contOk b4 then
                  Char.ofNat ((b - 0xF0) * 0x40000 + (b2 - 0x80) * 0x1000 +
                    (b3 - 0x80) * 0x40 + (b4 - 0x80)) :: utf8DecodeReplace rest4
                else replChar :: utf8DecodeReplace (b4 :: rest4)
            else replChar :: utf8DecodeReplace (b3 :: rest3)
        else replChar :: utf8DecodeReplace (b2 :: rest2)
    else replChar :: utf8DecodeReplace rest
  termination_by l => l.length

/-- The `utf-8` codec (every scalar value encodes, so `errors="replace"`
never substitutes on encode). -/
def utf8Codec : Codec := ⟨utf8EncodeChar, utf8DecodeReplace⟩

/-- The `ascii` codec with `errors="replace"`: unencodable characters become
`?` (0x3F) on encode, bytes ≥ 0x80 become U+FFFD on decode. -/
def asciiCodec : Codec :=
  ⟨fun c => if c.toNat < 0x80 then [c.toNat] else [0x3F],
   fun b => b.map (fun x => if x < 0x80 then Char.ofNat x else replChar)⟩

/-- Lower-case hex digit byte for `raw-unicode-escape`. -/
def hexLow (n : Nat) : Nat := if n < 10 then 48 + n else 87 + n

/-- Python `s.encode("raw-unicode-escape")`: bytes ≤ 0xFF pass through,
higher codepoints become backslash-u (or backslash-U) escape sequences. -/
def rawUnicodeEscape (s : PyStr) : PyBytes :=
  (s.map (fun c =>
    let n := c.toNat
    if n ≤ 0xFF then [n]
    else if n ≤ 0xFFFF then
      [92, 117, hexLow (n / 0x1000 % 16), hexLow (n / 0x100 % 16),
       hexLow (n / 16 % 16), hexLow (n % 16)]
    else
      [92, 85, hexLow (n / 0x10000000 % 16), hexLow (n / 0x1000000 % 16),
       hexLow (n / 0x100000 % 16), hexLow (n / 0x10000 % 16),
       hexLow (n / 0x1000 % 16), hexLow (n / 0x100 % 16),
       hexLow (n / 16 % 16), hexLow (n % 16)])).flatten

/-- Model of the email library's `bpayload` computation for a `str` payload:
`payload.encode("ascii")`, falling back to `raw-unicode-escape` on
`UnicodeError`. -/
def asciiSurrogate (s : PyStr) : PyBytes :=
  if s.all (fun c => c.toNat < 0x80) then s.map Char.toNat
  else rawUnicodeEscape s

/-!
## Base64
Models of `base64.encodebytes` (used by `_set_part_payload`) and of the
email library's decode path `decode_b(b"".flatten(bpayload.splitlines()))`.
-/

/-- Byte value of base64 alphabet character number `n` (0-63). -/
def b64Digit (n : Nat) : Nat :=
  if n < 26 then 65 + n
  else if n < 52 then 97 + (n - 26)
  else if n < 62 then 48 + (n - 52)
  else if n = 62 then 43 else 47

/-- Inverse of the base64 alphabet; `none` for a byte outside the alphabet. -/
def b64DigitVal (c : Nat) : Option Nat :=
  if 65 ≤ c ∧ c ≤ 90 then some (c - 65)
  else if 97 ≤ c ∧ c ≤ 122 then some (c - 71)
  else if 48 ≤ c ∧ c ≤ 57 then some (c + 4)
  else if c = 43 then some 62
  else if c = 47 then some 63
  else none

/-- Plain base64 encoding of a byte string (no line breaks), with `=`
padding. -/
def b64encode : PyBytes → PyBytes
  | b1 :: b2 :: b3 :: rest =>
      b64Digit (b1 / 4) :: b64Digit (b1 % 4 * 16 + b2 / 16) ::
      b64Digit (b2 % 16 * 4 + b3 / 64) :: b64Digit (b3 % 64) :: b64encode rest
  | [b1, b2] =>
      [b64Digit (b1 / 4), b64Digit (b1 % 4 * 16 + b2 / 16),
       b64Digit (b2 % 16 * 4), 61]
  | [b1] => [b64Digit (b1 / 4), b64Digit (b1 % 4 * 16), 61, 61]
  | [] => []

/-- Model of `base64.encodebytes`: 57-byte chunks, each encoded and
terminated by a newline. -/
def encodebytes (b : PyBytes) : PyBytes :=
  if b = [] then []
  else b64encode (b.take 57) ++ [10] ++ encodebytes (b.drop 57)
  termination_by b.length
  decreasing_by
    rename_i h
    have : b.length ≠ 0 := fun hl => h (List.eq_nil_of_length_eq_zero hl)
    simp [List.length_drop]
    omega

/-- Strict base64 decoding (binascii with `validate=True`): groups of four
alphabet characters, padding only at the very end. -/
def b64decodeStrict : PyBytes → Option PyBytes
  | [] => some []
  | c1 :: c2 :: c3 :: c4 :: rest =>
      match b64DigitVal c1, b64DigitVal c2 with
      | some v1, some v2 =>
        if c3 = 61 then
          if c4 = 61 ∧ rest = [] then some [v1 * 4 + v2 / 16] else none
        else
          match b64DigitVal c3 with
          | some v3 =>
            if c4 = 61 then
              if rest = [] then some [v1 * 4 + v2 / 16, v2 % 16 * 16 + v3 / 4]
              else none
            else
              match b64DigitVal c4 with
              | some v4 =>
                (b64decodeStrict rest).map
                  (fun tail => (v1 * 4 + v2 / 16) :: (v2 % 16 * 16 + v3 / 4) ::
                    ((v3 % 4 * 64 + v4) :: tail))
              | none => none
          | none => none
      | _, _ => none
  | _ => none

/-- Test for bytes kept by `b64decode(validate=False)` (alphabet or `=`). -/
def isB64Keep (c : Nat) : Bool := (b64DigitVal c).isSome || c == 61

/-- Model of the email library's base64 payload decoding:
`decode_b(b"".flatten(bpayload.splitlines()))` — line breaks removed, padding
repaired, strict decode first, then the lenient fallback that discards
non-alphabet bytes; as a last resort the undecodable payload is returned
as-is.  Only the strict path is relied on by the theorems below; the
fallbacks model `decode_b`'s defect-tolerant chain. -/
def decodeB64Payload (b : PyBytes) : PyBytes :=
  let joined := b.filter (fun x => x ≠ 10 && x ≠ 13)
  let padErr := joined.length % 4
  let padded := if padErr = 0 then joined else joined ++ List.replicate (4 - padErr) 61
  match b64decodeStrict padded with
  | some v => v
  | none =>
    let cleaned := joined.filter isB64Keep
    match (if cleaned.length % 4 = 0 then b64decodeStrict cleaned else none) with
    | some v => v
    | none => joined

/-!
## Quoted-printable decoding
Model of `quopri.decodestring`, which CPython implements with
`binascii.a2b_qp` (header=False).
-/

/-- Test for an ASCII hex digit byte (0-9, A-F, a-f), as accepted by
`binascii.a2b_qp`. -/
def isHexByte (c : Nat) : Bool :=
  (48 ≤ c && c ≤ 57) || (65 ≤ c && c ≤ 70) || (97 ≤ c && c ≤ 102)

/-- Numeric value of an ASCII hex digit byte. -/
def hexByteVal (c : Nat) : Nat :=
  if c ≤ 57 then c - 48 else if c ≤ 70 then c - 55 else c - 87

/-- Model of `binascii.a2b_qp(data)` (header=False): `=` followed by a
newline (or by `\r` and anything up to the next newline) is a soft break;
`==` emits a literal `=` (CPython's compatibility quirk); `=XY` with two hex
digits emits the byte; any other `=` is emitted literally; everything else
passes through. -/
def a2bQP : PyBytes → PyBytes
  | [] => []
  | b :: rest =>
    if b = 61 then
      match rest with
      | [] => []
      | r1 :: rest2 =>
        if r1 = 10 then a2bQP rest2
        else if r1 = 13 then a2bQP ((rest2.dropWhile (fun x => x ≠ 10)).drop 1)
        else if r1 = 61 then 61 :: a2bQP rest2
        else
          match rest2 with
          | r2 :: rest3 =>
            if isHexByte r1 && isHexByte r2 then
              (hexByteVal r1 * 16 + hexByteVal r2) :: a2bQP rest3
            else 61 :: a2bQP (r1 :: r2 :: rest3)
          | [] => 61 :: a2bQP [r1]
    else b :: a2bQP rest
  termination_by l => l.length
  decreasing_by
    all_goals simp
    all_goals try omega
    all_goals
      have h1 : (List.dropWhile (fun x => !decide (x = 10)) rest2).length ≤ rest2.length :=
        List.Sublist.length_le (List.dropWhile_sublist _)
      omega

/-!
## Parsed message model and section extraction
Source: `core/section_extractor.py`.  The result of
`email.message_from_string` is modelled as a tree of parts; header-level
facts that the source reads through the email library (`get_content_type()`,
`get_content_charset() or "utf-8"`, the `.strip().lower()`-normalised
Content-Transfer-Encoding with its `"7bit"` default) appear as fields of the
parsed leaf.  Serialising with `as_string()` and re-parsing is modelled as
the identity on this tree (the email library's documented round-trip).
-/

/-- Payload of a leaf part: the email library stores a `str`;
`_set_part_payload` stores raw `bytes` for the 8bit case (Python keeps them
as a surrogate-escaped `str`, which round-trips back to the same bytes). -/
inductive PartPayload where
  | str (s : PyStr)
  | bytes (b : PyBytes)

/-- Model of a parsed `email.message.Message`: multipart container or leaf. -/
inductive Part where
  | leaf (contentType : PyStr) (charset : Codec) (cte : PyStr)
      (hasCTEHeader : Bool) (payload : PartPayload)
  | multi (contentType : PyStr) (parts : List Part)

/-- Model of `msg.get_payload(decode=True)` for a leaf part: the payload is
converted to bytes (`ascii` encode with `raw-unicode-escape` fallback for a
`str`; stored bytes round-trip unchanged), then the transfer encoding is
undone: quoted-printable via `quopri.decodestring`, base64 via `decode_b`,
anything else returned as-is. -/
def decodeTransfer (cte : PyStr) (p : PartPayload) : PyBytes :=
  let bpayload := match p with
    | .str s => asciiSurrogate s
    | .bytes b => b
  if cte = ("quoted-printable").toList then a2bQP bpayload
  else if cte = ("base64").toList then decodeB64Payload bpayload
  else bpayload

/-- Annotatable section (dataclass `EmailSection` in section_extractor.py). -/
structure EmailSection where
  index : Nat
  sectionType : PyStr
  label : PyStr
  content : PyStr
  charset : Codec
  originalCTE : PyStr
  mimePath : List Nat

/-- Suffix of a content type after the last `/` (Python
`content_type.split("/")[-1]`). -/
def afterLastSlash (s : PyStr) : PyStr := (s.reverse.takeWhile (fun c => c ≠ '/')).reverse

/-- Section type for a text leaf (source lines 113-121): `TEXT_PLAIN`,
`TEXT_HTML`, or `TEXT_<SUBTYPE>` (content types are ASCII, so Python's
`.upper()` is character-wise `toUpper`). -/
def sectionTypeOf (contentType : PyStr) : PyStr :=
  if contentType = ("text/plain").toList then ("TEXT_PLAIN").toList
  else if contentType = ("text/html").toList then ("TEXT_HTML").toList
  else ("TEXT_").toList ++ (afterLastSlash contentType).map Char.toUpper

/-- Base label for a text leaf (source lines 113-121). -/
def baseLabelOf (contentType : PyStr) : PyStr :=
  if contentType = ("text/plain").toList then ("Text Body").toList
  else if contentType = ("text/html").toList then ("HTML Body").toList
  else contentType ++ (" Body").toList

/-- Process one text leaf into a section, given the sections accumulated so
far (for the duplicate-label counter, source lines 123-126). -/
def leafSection (acc : List EmailSection) (contentType : PyStr) (cs : Codec)
    (cte : PyStr) (payload : PartPayload) (path : List Nat) : EmailSection :=
  let content := stripCR (cs.dec (decodeTransfer cte payload))
  let st := sectionTypeOf contentType
  let base := baseLabelOf contentType
  let existingCount := (acc.filter (fun s => s.sectionType = st)).length
  let label := if existingCount > 0 then
      base ++ (" (").toList ++ (toString (existingCount + 1)).toList ++ (")").toList
    else base
  ⟨0, st, label, content, cs, cte, path⟩

mutual

/-- Model of `_walk_parts` (source lines 78-138): recursively walk MIME
parts collecting decoded `text/*` leaves into the accumulator. -/
def walkParts : Part → List Nat → List EmailSection → List EmailSection
  | .multi _ parts, path, acc => walkPartsList parts 0 path acc
  | .leaf ct cs cte _ payload, path, acc =>
      if ct.take 5 = ("text/").toList then
        acc ++ [leafSection acc ct cs cte payload path]
      else acc

/-- Enumerated walk over the children of a multipart container. -/
def walkPartsList : List Part → Nat → List Nat → List EmailSection → List EmailSection
  | [], _, _, acc => acc
  | p :: ps, i, path, acc => walkPartsList ps (i + 1) path (walkParts p (path ++ [i]) acc)

end

/-- Model of `_extract_body_sections` (source lines 71-75). -/
def extractBodySections (msg : Part) : List EmailSection := walkParts msg [] []

/-- Model of `extract_sections` (source lines 25-57): section 0 is the
header block with `\r` stripped; body sections follow with `index`
renumbered from 1.  The parsed message tree is passed alongside the raw
string (the parse `email.message_from_string(raw_content)` itself is the
email library's). -/
def extractSections (raw : PyStr) (msg : Part) : List EmailSection :=
  let header : EmailSection :=
    ⟨0, ("HEADERS").toList, ("Email Headers").toList, extractHeaders raw,
     utf8Codec, ("7bit").toList, []⟩
  let body := (extractBodySections msg).enum.map
    (fun p => { p.2 with index := p.1 + 1 })
  header :: body

/-!
## Replacement splicing
Source: `core/section_reassembler.py`, `_apply_replacements` (lines 219-229).
-/

/-- Annotation record as consumed by the reassembler: `start_offset` and
`end_offset` are IntegerFields, `tag` a CharField with default `""` (so a
falsy tag is the empty string) and `class_name` a CharField. -/
structure Ann where
  startOffset : Int
  endOffset : Int
  tag : PyStr
  className : PyStr
deriving DecidableEq

/-- Python `ann.tag or f"[{ann.class_name}]"`: the tag when truthy
(nonempty), otherwise the bracketed class name. -/
def effTag (a : Ann) : PyStr :=
  if a.tag = [] then ("[").toList ++ a.className ++ ("]").toList else a.tag

/-- Python `result[:a] ` for an integer bound. -/
def pySliceTo (s : PyStr) (b : Int) : PyStr := s.take (pyBound s.length b)

/-- Python `result[a:]` for an integer bound. -/
def pySliceFrom (s : PyStr) (a : Int) : PyStr := s.drop (pyBound s.length a)

/-- One splice `result[:start] + tag + result[end:]` (source line 228). -/
def splice (res : PyStr) (a : Ann) : PyStr :=
  pySliceTo res a.startOffset ++ effTag a ++ pySliceFrom res a.endOffset

/-- Relation for Python `sorted(key=lambda a: a.start_offset, reverse=True)`:
descending by start offset. -/
def descStart (a b : Ann) : Prop := b.startOffset ≤ a.startOffset

instance : DecidableRel descStart := fun a b => Int.decLe _ _

instance : IsTotal Ann descStart := ⟨fun a b => le_total b.startOffset a.startOffset⟩

instance : IsTrans Ann descStart := ⟨fun _ _ _ h1 h2 => le_trans h2 h1⟩

/-- Strictly-descending start order, used for sortedness uniqueness. -/
def gtStart (a b : Ann) : Prop := b.startOffset < a.startOffset

instance : IsAntisymm Ann gtStart :=
  ⟨fun a b h1 h2 => absurd (lt_trans h1 h2) (lt_irrefl _)⟩

/-- Model of `sorted(annotations, key=lambda a: a.start_offset, reverse=True)`
(source line 224); Python's sort is stable, as is insertion sort. -/
def sortByStartDesc (anns : List Ann) : List Ann := anns.insertionSort descStart

/-- Model of `_apply_replacements` (source lines 219-229): sort descending by
start offset, then splice right-to-left. -/
def applyReplacements (content : PyStr) (anns : List Ann) : PyStr :=
  (sortByStartDesc anns).foldl splice content

/-- Shift an annotation's offsets down by `k` (used by the declarative
replacement specification below). -/
def shiftAnn (k : Int) (x : Ann) : Ann :=
  { x with startOffset := x.startOffset - k, endOffset := x.endOffset - k }

/-- Declarative simultaneous replacement, from the claim's words: for spans
listed in ascending order, the content with each range
`[start_offset, end_offset)` replaced by the effective tag. -/
def specReplace (content : PyStr) : List Ann → PyStr
  | [] => content
  | a :: rest =>
      content.take a.startOffset.toNat ++ effTag a ++
        specReplace (content.drop a.endOffset.toNat) (rest.map (shiftAnn a.endOffset))
  termination_by l => l.length
  decreasing_by
    simp [List.length_map]

/-!
## Quoted-printable encoding
Model of `quopri.encodestring`, which CPython implements with
`binascii.b2a_qp` (quotetabs=False, istext=True, header=False).  The encoder
is expressed as a fold that emits atoms (literal byte, `=XX` quote, hard
line break, soft line break) with the C implementation's line-length
accounting, trailing-whitespace re-quoting and lone-dot quoting; the atoms
are then rendered with `\n` or `\r\n` line ends according to the CRLF
detection on the input.
-/

/-- Output atom of the quoted-printable encoder. -/
inductive QPAtom where
  | lit (b : Nat)
  | quot (b : Nat)
  | hardLF
  | softLF
deriving DecidableEq

/-- Upper-case hex digit byte (binascii emits upper case). -/
def hexUp (n : Nat) : Nat := if n < 10 then 48 + n else 55 + n

/-- Quoting condition of `binascii.b2a_qp` for quotetabs=False, istext=True,
header=False: bytes above 126, `=`, a lone dot at the start of a line, a
trailing space or tab at the very end of the data, and control bytes other
than `\t`, `\n`, `\r`, space. -/
def quoteCond (b : Nat) (linelen : Nat) (next : Option Nat) : Bool :=
  (126 < b) || (b == 61) ||
  (b == 46 && linelen == 0 &&
    (next == none || next == some 10 || next == some 13 || next == some 0)) ||
  ((b == 9 || b == 32) && next == none) ||
  (b < 33 && b != 13 && b != 10 && b != 9 && b != 32)

/-- When a hard line break is emitted, a trailing space or tab already in the
output is re-encoded as `=20`/`=09` (RFC 1521 protection, done in-place by
the C code). -/
def retroQuote (out : List QPAtom) : List QPAtom :=
  match out with
  | QPAtom.lit w :: out' =>
      if w == 32 || w == 9 then QPAtom.quot w :: out' else out
  | _ => out

/-- Encoder loop of `binascii.b2a_qp`: `linelen` is the current output line
length, `out` the reversed atom list. -/
def b2aQPGo : List Nat → Nat → List QPAtom → List QPAtom
  | [], _, out => out.reverse
  | b :: rest, linelen, out =>
    if quoteCond b linelen rest.head? then
      if linelen + 3 ≥ 76 then
        b2aQPGo rest 3 (QPAtom.quot b :: QPAtom.softLF :: out)
      else
        b2aQPGo rest (linelen + 3) (QPAtom.quot b :: out)
    else if b = 10 then
      b2aQPGo rest 0 (QPAtom.hardLF :: retroQuote out)
    else if b = 13 ∧ rest.head? = some 10 then
      b2aQPGo rest.tail 0 (QPAtom.hardLF :: retroQuote out)
    else
      if rest ≠ [] ∧ rest.head? ≠ some 10 ∧ linelen + 1 ≥ 76 then
        b2aQPGo rest 1 (QPAtom.lit b :: QPAtom.softLF :: out)
      else
        b2aQPGo rest (linelen + 1) (QPAtom.lit b :: out)
  termination_by l _ _ => l.length
  decreasing_by
    all_goals simp [List.length_tail]
    all_goals omega

/-- CRLF detection of `binascii.b2a_qp`: whether the first `\n` in the data
is preceded by `\r`. -/
def crlfDetect : List Nat → Bool
  | [] => false
  | a :: rest =>
      if a = 10 then false
      else
        match rest with
        | [] => false
        | b :: _ => if b = 10 then a == 13 else crlfDetect rest

/-- Byte rendering of one encoder atom. -/
def renderQPAtom (crlf : Bool) : QPAtom → PyBytes
  | .lit b => [b]
  | .quot b => [61, hexUp (b / 16), hexUp (b % 16)]
  | .hardLF => if crlf then [13, 10] else [10]
  | .softLF => if crlf then [61, 13, 10] else [61, 10]

/-- Model of `binascii.b2a_qp(data)` = `quopri.encodestring(data)`. -/
def b2aQP (data : PyBytes) : PyBytes :=
  ((b2aQPGo data 0 []).map (renderQPAtom (crlfDetect data))).flatten

/-- The data byte an encoder atom stands for (none for a soft break); used to
state that the encoder is faithful to its input. -/
def qpAtomBytes : QPAtom → PyBytes
  | .lit b => [b]
  | .quot b => [b]
  | .hardLF => [10]
  | .softLF => []

/-- Invariant of the atoms the encoder emits: a literal is never `=` and
always printable-range (the quoting condition catches both), a quote always
holds one byte. -/
def qpAtomOK : QPAtom → Prop
  | .lit b => b ≠ 61 ∧ b < 127
  | .quot b => b < 256
  | .hardLF => True
  | .softLF => True

/-!
## Reassembly
Source: `core/section_reassembler.py`.
-/

/-- Model of `_set_part_payload` (source lines 182-216) applied to a leaf
part: encode the text with the section's charset (`errors="replace"`; the
`LookupError` fallback to utf-8 cannot fire for a resolved codec), re-encode
according to the section's original CTE (base64 via `base64.encodebytes`,
quoted-printable via `quopri.encodestring`, otherwise a literal bytes
payload), and update the Content-Transfer-Encoding header in place.  The
Content-Type header (and hence the leaf's declared charset) is not touched. -/
def setPartPayload (leaf : Part) (text : PyStr) (sec : EmailSection) : Part :=
  match leaf with
  | .multi ct parts => .multi ct parts
  | .leaf ct cs _ _ _ =>
      let payloadBytes := encStr sec.charset text
      if sec.originalCTE = ("base64").toList then
        .leaf ct cs (("base64").toList) true
          (.str ((encodebytes payloadBytes).map Char.ofNat))
      else if sec.originalCTE = ("quoted-printable").toList then
        .leaf ct cs (("quoted-printable").toList) true
          (.str ((b2aQP payloadBytes).map Char.ofNat))
      else
        .leaf ct cs (("8bit").toList) true (.bytes payloadBytes)

/-- Lookup in the `section_by_path` dict built by `_deidentify_multipart`
(source lines 140-147); for duplicate paths the last insertion wins, hence
`getLast?`. -/
def sectionByPath (secs : List EmailSection) (path : List Nat) : Option EmailSection :=
  (secs.filter (fun s => s.mimePath = path)).getLast?

mutual

/-- Model of `_walk_and_deidentify` (source lines 150-179): recursively walk
the tree; for a `text/*` leaf whose path has a section, apply the span
replacements (or pass the section content through unchanged when it has no
annotations) and set the re-encoded payload; leaves without a matching
section, and non-text leaves, are returned untouched. -/
def walkAndDeidentify (sbp : List EmailSection) (abs : Nat → List Ann) :
    Part → List Nat → Part
  | .multi ct parts, path => .multi ct (walkDeidentifyList sbp abs parts 0 path)
  | .leaf ct cs cte hH payload, path =>
      if ct.take 5 = ("text/").toList then
        match sectionByPath sbp path with
        | none => .leaf ct cs cte hH payload
        | some sec =>
            let anns := abs sec.index
            let modified := if anns ≠ [] then applyReplacements sec.content anns
              else sec.content
            setPartPayload (.leaf ct cs cte hH payload) modified sec
      else .leaf ct cs cte hH payload

/-- Enumerated walk over the children of a multipart container. -/
def walkDeidentifyList (sbp : List EmailSection) (abs : Nat → List Ann) :
    List Part → Nat → List Nat → List Part
  | [], _, _ => []
  | p :: ps, i, path =>
      walkAndDeidentify sbp abs p (path ++ [i]) ::
        walkDeidentifyList sbp abs ps (i + 1) path

end

/-- Model of `deidentify_and_reassemble` (source lines 16-55) at tree level.
The `annotations_by_section` dict is modelled as the lookup function
`abs : Nat → List Ann` (`dict.get(index, [])`).  Header de-identification
(lines 34-38) rewrites header fields of the root message, which sit outside
this tree model; it is guarded by `annotations_by_section.get(0, [])` being
nonempty and is a no-op in the claims settled here (C4 passes an empty span
map; C9 concerns a body leaf, which header replacement never touches).
Serialising with `msg.as_string()` and re-parsing is modelled as the
identity on the tree. -/
def deidentifyAndReassemble (raw : PyStr) (msg : Part) (secs : List EmailSection)
    (abs : Nat → List Ann) : Part :=
  let bodySections := secs.filter (fun s => s.sectionType ≠ ("HEADERS").toList)
  match msg with
  | .multi ct parts => walkAndDeidentify bodySections abs (.multi ct parts) []
  | .leaf ct cs cte hH payload =>
      match bodySections with
      | [] => .leaf ct cs cte hH payload
      | sec :: _ =>
          let anns := abs sec.index
          if anns ≠ [] then
            setPartPayload (.leaf ct cs cte hH payload)
              (applyReplacements sec.content anns) sec
          else
            setPartPayload (.leaf ct cs cte hH payload) sec.content sec

/-- Subtree of a parsed message at a MIME path (child indices from the
root). -/
def getPart : Part → List Nat → Option Part
  | t, [] => some t
  | .multi _ parts, i :: rest =>
      match parts.get? i with
      | some c => getPart c rest
      | none => none
  | .leaf _ _ _ _ _, _ :: _ => none

mutual

/-- Projection of `_walk_parts` onto (MIME path, decoded content): the
`text/*` leaves of a subtree in walk order, each with its `\r`-stripped
decoded content.  The accumulator of `_walk_parts` only influences labels and
indices, never paths or content, so this projection is accumulator-free. -/
def extractPC : Part → List Nat → List (List Nat × PyStr)
  | .leaf ct cs cte _ payload, path =>
      if ct.take 5 = ("text/").toList then
        [(path, stripCR (cs.dec (decodeTransfer cte payload)))]
      else []
  | .multi _ parts, path => extractPCList parts 0 path

/-- Enumerated companion of `extractPC`. -/
def extractPCList : List Part → Nat → List Nat → List (List Nat × PyStr)
  | [], _, _ => []
  | p :: ps, i, path => extractPC p (path ++ [i]) ++ extractPCList ps (i + 1) path

end

mutual

/-- MIME skeleton of a message: every node's path, content type and
container/leaf kind in walk order (the claim's "same part structure"). -/
def skel : Part → List Nat → List (List Nat × PyStr × Bool)
  | .leaf ct _ _ _ _, path => [(path, ct, false)]
  | .multi ct parts, path => (path, ct, true) :: skelList parts 0 path

/-- Enumerated companion of `skel`. -/
def skelList : List Part → Nat → List Nat → List (List Nat × PyStr × Bool)
  | [], _, _ => []
  | p :: ps, i, path => skel p (path ++ [i]) ++ skelList ps (i + 1) path

end

/-- Round-trip conditions on one body section under which re-encoding its
content is lossless: the section's charset decodes its own encoding of the
content back to the content, the encoded bytes are in byte range, and for a
quoted-printable section the encoded content holds no bare carriage
return. -/
def secRT (s : EmailSection) : Prop :=
  s.charset.dec (encStr s.charset s.content) = s.content ∧
  (∀ b ∈ encStr s.charset s.content, b < 256) ∧
  (s.originalCTE = ("quoted-printable").toList → 13 ∉ encStr s.charset s.content)

instance (s : EmailSection) : Decidable (secRT s) := by
  unfold secRT
  infer_instance

/-- Lookup soundness of the `section_by_path` dict for a subtree mounted at
`π`: every `text/*` leaf finds a section carrying its own decoded content,
charset and original CTE, and that section satisfies the round-trip
conditions. -/
def lookupOK (sbp : List EmailSection) (t : Part) (π : List Nat) : Prop :=
  ∀ (ρ : List Nat) (ct : PyStr) (cs : Codec) (cte : PyStr) (hB : Bool)
    (payload : PartPayload),
    getPart t ρ = some (.leaf ct cs cte hB payload) →
    ct.take 5 = ("text/").toList →
    ∃ s : EmailSection,
      sectionByPath sbp (π ++ ρ) = some s ∧
      s.content = stripCR (cs.dec (decodeTransfer cte payload)) ∧
      s.charset = cs ∧ s.originalCTE = cte ∧ secRT s

/-!
## Quoted-printable offset table
Source: `core/eml_normalizer.py`, `_build_qp_offset_table` (lines 241-319).
-/

/-- Model of `_is_hex_char` (source lines 236-238). -/
def isHexChar (c : Char) : Bool := (("0123456789ABCDEFabcdef").toList).contains c

/-- Pass 1 of `_build_qp_offset_table` (source lines 259-291): the raw
position to decoded *byte* position table.  At each step the source writes
the current byte position for every raw character consumed; here the guards
`i + 1 < body_len and body[i + 1] == "\n"` and
`i + 2 < body_len and hex and hex` appear as conditions on the rest of the
list.  The final entry (the source's `byte_table[body_len] = byte_pos`) is
the base case. -/
def qpPass1 : PyStr → Nat → List Nat
  | [], bp => [bp]
  | c :: rest, bp =>
      if c = '=' ∧ rest.head? = some '\n' then
        bp :: bp :: qpPass1 rest.tail bp
      else if c = '=' ∧ 2 ≤ rest.length ∧
          isHexChar (rest.headD ' ') ∧ isHexChar (rest.tail.headD ' ') then
        bp :: bp :: bp :: qpPass1 rest.tail.tail (bp + 1)
      else
        bp :: qpPass1 rest (bp + 1)
  termination_by l _ => l.length
  decreasing_by
    all_goals simp [List.length_tail]
    all_goals omega

/-- Pass 2 of `_build_qp_offset_table` (source lines 297-311), flattened:
for each character of the decoded string, its index repeated once per byte
of its encoding in the charset. -/
def btcFlat (cs : Codec) : PyStr → Nat → List Nat
  | [], _ => []
  | c :: rest, idx => List.replicate (cs.enc c).length idx ++ btcFlat cs rest (idx + 1)

/-- The `byte_to_char` array of pass 2: the source writes `char_idx` at the
running byte cursor (skipping writes beyond the array end) and fills the
remaining cells with the final character count; that array equals the
flattened per-character table truncated or padded to length `nBytes + 1`. -/
def byteToCharTable (cs : Codec) (decodedStr : PyStr) (nBytes : Nat) : List Nat :=
  (btcFlat cs decodedStr 0 ++ List.replicate (nBytes + 1) decodedStr.length).take (nBytes + 1)

/-- Model of `_build_qp_offset_table(raw_stripped_body, charset)` (source
lines 241-319): pass 1 builds the raw-to-byte table, pass 2 decodes
`body.encode("ascii", errors="replace")` with `quopri.decodestring` and the
charset and builds the byte-to-character table, pass 3 composes them with
the source's clamp `min(byte_table[i], len(decoded_bytes))` (the guard
`b < len(byte_to_char)` is always true since `b ≤ len(decoded_bytes)`; its
`else char_idx` arm is the `getD` default). -/
def buildQpOffsetTable (body : PyStr) (cs : Codec) : List Nat :=
  let byteTable := qpPass1 body 0
  let decodedBytes := a2bQP (encStr asciiCodec body)
  let decodedStr := cs.dec decodedBytes
  let b2c := byteToCharTable cs decodedStr decodedBytes.length
  byteTable.map (fun b => b2c.getD (min b decodedBytes.length) decodedStr.length)

/-- Number of bytes the first `k` characters of `s` occupy in charset `cs`. -/
def decodedPrefixBytes (cs : Codec) (s : PyStr) (k : Nat) : Nat :=
  (encStr cs (s.take k)).length

/-- Declarative byte-position-to-codepoint-position mapping of a decoded
string (the claim's second map): the index of the character containing byte
position `b`, i.e. the number of characters whose encoding is entirely
contained in the first `b` bytes. -/
def byteToCharSpec (cs : Codec) (s : PyStr) (b : Nat) : Nat :=
  (List.range s.length).countP (fun j => decodedPrefixBytes cs s (j + 1) ≤ b)

/-- Test for a suffix starting with a soft line break or a valid hex pair
(the two non-default productions of the claim's QP grammar). -/
def qpSpecial (s : PyStr) : Prop :=
  (∃ rest, s = '=' :: '\n' :: rest) ∨
  (∃ c1 c2 rest, s = '=' :: c1 :: c2 :: rest ∧
    isHexChar c1 = true ∧ isHexChar c2 = true)

/-- The claim's QP grammar as an inductive relation between a raw suffix,
the current decoded byte position, and the table segment for that suffix:
a valid hex pair `=XX` consumes 3 raw characters and contributes 1 decoded
byte, a soft line break `=\n` consumes 2 raw characters and 0 decoded bytes,
and any other raw character consumes 1 raw character and contributes 1
decoded byte; each raw position is tagged with the decoded byte position at
which it starts. -/
inductive QPAdv : PyStr → Nat → List Nat → Prop where
  | nil (bp : Nat) : QPAdv [] bp [bp]
  | soft (rest : PyStr) (bp : Nat) (t : List Nat) :
      QPAdv rest bp t → QPAdv ('=' :: '\n' :: rest) bp (bp :: bp :: t)
  | pair (c1 c2 : Char) (rest : PyStr) (bp : Nat) (t : List Nat) :
      isHexChar c1 = true → isHexChar c2 = true →
      QPAdv rest (bp + 1) t → QPAdv ('=' :: c1 :: c2 :: rest) bp (bp :: bp :: bp :: t)
  | other (c : Char) (rest : PyStr) (bp : Nat) (t : List Nat) :
      ¬ qpSpecial (c :: rest) →
      QPAdv rest (bp + 1) t → QPAdv (c :: rest) bp (bp :: t)

/-!
## Raw-to-normalized offset map
Source: `core/eml_normalizer.py`, `build_raw_to_normalized_offset_map`
(lines 374-527).  The closure `map_fn` captures the event list built from
the collected replacements (a CTE-header event and a body event per encoded
part, with raw-stripped coordinates); the events are modelled directly.
-/

/-- One offset event (source lines 450-468): a Content-Transfer-Encoding
header replacement, or a body replacement.  A quoted-printable body carries
its offset table (`qp_map`) and the whitespace bounds `content_start` /
`content_end`; a base64 body (`qpMap = none`) is mapped proportionally. -/
inductive OffsetEvent where
  | cte (start stop : Nat) (replacementLen : Nat)
  | body (start stop : Nat) (decodedLen : Nat) (qpMap : Option (List Nat))
      (contentStart contentEnd : Nat)
deriving DecidableEq

/-- Decoded-local position inside a body event (source lines 492-515).  For
quoted-printable: clamp to the stripped-content bounds and look the local
offset up in the table, capping at the decoded length.  For base64 the
source computes `int(local_offset / max(1, body_len) * decoded_len)` in
floating point; it is modelled as exact integer division, which agrees on
the monotonicity the claim is about. -/
def bodyDecodedLocal (qpMap : Option (List Nat)) (dlen cs ce bodyLen loc : Nat) : Nat :=
  match qpMap with
  | some t =>
      if loc < cs then 0
      else if ce ≤ loc then dlen
      else min (t.getD (min (loc - cs) (t.length - 1)) 0) dlen
  | none => min (loc * dlen / max 1 bodyLen) dlen

/-- Model of the closure `map_fn` (source lines 472-525): `cum` is the
running `cumulative_delta` of fully consumed events; an offset before the
next event maps through the accumulated delta, an offset inside a CTE header
snaps to the header's start, an offset inside a body maps via
`bodyDecodedLocal`. -/
def mapFnGo : List OffsetEvent → Int → Nat → Int
  | [], cum, off => (off : Int) - cum
  | .cte s e repl :: rest, cum, off =>
      if off < s then (off : Int) - cum
      else if off < e then (s : Int) - cum
      else mapFnGo rest (cum + ((e : Int) - (s : Int) - (repl : Int))) off
  | .body s e dlen qpMap cs ce :: rest, cum, off =>
      if off < s then (off : Int) - cum
      else if off ≤ e then
        ((s : Int) - cum) + (bodyDecodedLocal qpMap dlen cs ce (e - s) (off - s) : Int)
      else mapFnGo rest (cum + ((e : Int) - (s : Int) - (dlen : Int))) off

/-- The function returned by `build_raw_to_normalized_offset_map`, as a
function of its captured event list. -/
def mapFn (events : List OffsetEvent) (off : Nat) : Int := mapFnGo events 0 off

/-- Start coordinate of an event. -/
def eventStart : OffsetEvent → Nat
  | .cte s _ _ => s
  | .body s _ _ _ _ _ => s

/-- Stop coordinate of an event. -/
def eventStop : OffsetEvent → Nat
  | .cte _ e _ => e
  | .body _ e _ _ _ _ => e

/-- Sanity of a single event: `start ≤ stop`, and a quoted-printable body's
table is nonempty and non-decreasing (which `_build_qp_offset_table` always
produces, see `qp_offset_table_sorted`). -/
def eventOK : OffsetEvent → Prop
  | .cte s e _ => s ≤ e
  | .body s e _ qpMap _ _ =>
      s ≤ e ∧ ∀ t, qpMap = some t → (t ≠ [] ∧ List.Sorted (· ≤ ·) t)

/-- Well-formed event list: events are pairwise disjoint in increasing
order (the source sorts them by start and collects non-overlapping
replacements), each individually sane. -/
def WFEvents (events : List OffsetEvent) : Prop :=
  List.Pairwise (fun e₁ e₂ => eventStop e₁ ≤ eventStart e₂) events ∧
  ∀ e ∈ events, eventOK e

/-!
## Theorems for claims C1, C2, C8
-/

theorem pySlice_ofNat (s : PyStr) (a b : Nat) :
    pySlice s (a : Int) (b : Int) = pySliceNat s a b := by
  unfold pySlice pySliceNat pyBound
  have ha : ¬ ((a : Int) < 0) := by omega
  have hb : ¬ ((b : Int) < 0) := by omega
  rw [if_neg ha, if_neg hb]
  simp only [Int.toNat_ofNat]
  have htake : s.take (min b s.length) = s.take b := by
    rcases Nat.le_total b s.length with h | h
    · rw [min_eq_left h]
    · rw [min_eq_right h, List.take_length, List.take_of_length_le h]
  rw [htake]
  rcases Nat.le_total a s.length with h | h
  · rw [min_eq_left h]
  · have h1 : (s.take b).length ≤ s.length := by
      rw [List.length_take]; exact min_le_right _ _
    rw [min_eq_right h, List.drop_eq_nil_of_le h1,
      List.drop_eq_nil_of_le (le_trans h1 h)]

@[simp] theorem u16len_nil : u16len [] = 0 := rfl

theorem u16len_cons (c : Char) (s : PyStr) :
    u16len (c :: s) = charUnits c + u16len s := by
  unfold u16len
  simp

@[simp] theorem u16len_take_zero (s : PyStr) : u16len (s.take 0) = 0 := by
  simp [u16len]

theorem u16len_take_succ_cons (c : Char) (s : PyStr) (j : Nat) :
    u16len ((c :: s).take (j + 1)) = charUnits c + u16len (s.take j) := by
  rw [List.take_succ_cons, u16len_cons]

theorem utf16Aux_eq_some (text : PyStr) : ∀ u cp off k : Nat,
    utf16Aux text u cp off = some k ↔
      ∃ m, m ≤ text.length ∧ k = cp + m ∧
        (∀ j, j < m → u + u16len (text.take j) < off) ∧
        off ≤ u + u16len (text.take m) ∧
        (m = text.length → u + u16len text = off) := by
  induction text with
  | nil =>
    intro u cp off k
    simp only [utf16Aux, List.length_nil, List.take_nil, u16len_nil]
    constructor
    · intro h
      by_cases hu : u = off
      · rw [if_pos hu] at h
        injection h with h
        exact ⟨0, Nat.le_refl 0, by omega, fun j hj => absurd hj (by omega),
          by omega, fun _ => by omega⟩
      · rw [if_neg hu] at h
        exact absurd h (by simp)
    · rintro ⟨m, hm, hk, _, hoff, hend⟩
      have hm0 : m = 0 := Nat.le_zero.mp hm
      subst hm0
      have : u = off := hend rfl
      rw [if_pos this]
      simp [hk]
  | cons c rest ih =>
    intro u cp off k
    simp only [utf16Aux, List.length_cons]
    by_cases h : off ≤ u
    · rw [if_pos h]
      constructor
      · intro heq
        injection heq with heq
        refine ⟨0, by omega, by omega, fun j hj => absurd hj (by omega), ?_, by omega⟩
        simpa using h
      · rintro ⟨m, hm, hk, hj, _, _⟩
        have hm0 : m = 0 := by
          by_contra hne
          have := hj 0 (by omega)
          simp only [u16len_take_zero] at this
          omega
        subst hm0
        simp [hk]
    · rw [if_neg h]
      rw [ih (u + charUnits c) (cp + 1) off k]
      constructor
      · rintro ⟨m, hm, hk, hj, hoff, hend⟩
        refine ⟨m + 1, by omega, by omega, ?_, ?_, ?_⟩
        · intro j hjm
          cases j with
          | zero => simpa using (by omega : u < off)
          | succ j' =>
            rw [u16len_take_succ_cons]
            have := hj j' (by omega)
            omega
        · rw [u16len_take_succ_cons]
          omega
        · intro hmlen
          rw [u16len_cons]
          have := hend (by omega)
          omega
      · rintro ⟨m, hm, hk, hj, hoff, hend⟩
        have hm0 : m ≠ 0 := by
          intro h0
          subst h0
          simp only [u16len_take_zero] at hoff
          omega
        obtain ⟨m', rfl⟩ : ∃ m', m = m' + 1 := ⟨m - 1, by omega⟩
        refine ⟨m', by omega, by omega, ?_, ?_, ?_⟩
        · intro j hjm
          have := hj (j + 1) (by omega)
          rw [u16len_take_succ_cons] at this
          omega
        · rw [u16len_take_succ_cons] at hoff
          omega
        · intro hmlen
          have := hend (by omega)
          rw [u16len_cons] at this
          omega

/-- C2 (amended): `_utf16_offset_to_codepoint(text, off)` returns `some k`
exactly when `k` is the smallest codepoint index whose accumulated UTF-16
code-unit count reaches or exceeds `off`, where an end-of-string result
additionally requires the total count to equal `off` exactly.  In particular
an offset strictly inside a surrogate pair that is not the final character
snaps to the codepoint index after that character instead of returning
`None`; `None` is returned only when the offset is past the end of the string
without landing on the boundary, or strictly inside the final character's
surrogate pair. -/
theorem utf16_offset_to_codepoint_spec (text : PyStr) (off k : Nat) :
    utf16OffsetToCodepoint text off = some k ↔
      k ≤ text.length ∧
      (∀ j, j < k → u16len (text.take j) < off) ∧
      off ≤ u16len (text.take k) ∧
      (k = text.length → u16len text = off) := by
  unfold utf16OffsetToCodepoint
  rw [utf16Aux_eq_some]
  constructor
  · rintro ⟨m, hm, hk, hj, hoff, hend⟩
    have hkm : k = m := by omega
    subst hkm
    exact ⟨hm, fun j hjm => by have := hj j hjm; omega,
      by omega, fun h => by have := hend h; omega⟩
  · rintro ⟨hm, hj, hoff, hend⟩
    exact ⟨k, hm, by omega, fun j hjm => by have := hj j hjm; omega,
      by omega, fun h => by have := hend h; omega⟩

theorem utf16_offset_to_codepoint_spec_witness :
    utf16OffsetToCodepoint (("ab").toList) 1 = some 1 :=
  (utf16_offset_to_codepoint_spec (("ab").toList) 1 1).mpr (by decide)

/-- C2 counterexample: the offset 1 lies strictly inside the surrogate pair
of U+1F600 (which occupies UTF-16 units 0 and 1), yet the function returns
`some 1` — snapping to the next codepoint — rather than `None` as the claim
states. -/
theorem utf16_inside_surrogate_not_none :
    utf16OffsetToCodepoint [Char.ofNat 0x1F600, 'a'] 1 = some 1 ∧
    charUnits (Char.ofNat 0x1F600) = 2 := by decide

/-- C1: whenever a repair tool reports a span as corrected — `_try_fix`
returning `was_changed=True`, or the trim command applying a change — the
section content sliced at the new offsets equals the stored text exactly
(for `_try_fix` the stored text is unchanged; for the trim command it is the
newly stored trimmed text). -/
theorem repair_reports_exact_slice (content text : PyStr) :
    (∀ s e ns ne, tryFix content s e text = some (ns, ne, true) →
      pySliceNat content ns ne = text) ∧
    (∀ s e t ns ne, trimFixStep content text s e = some (t, ns, ne) →
      pySlice content ns ne = t) := by
  constructor
  · intro s e ns ne h
    unfold tryFix at h
    split at h
    · split at h
      · simp at h
      · split at h
        · rename_i hver
          simp only [Option.some.injEq, Prod.mk.injEq] at h
          obtain ⟨h1, h2, _⟩ := h
          rw [← h1, ← h2]
          exact hver
        · simp at h
    · simp at h
    · simp at h
  · intro s e t ns ne h
    unfold trimFixStep at h
    split at h
    · simp at h
    · split at h
      · split at h
        · rename_i hver
          simp only [Option.some.injEq, Prod.mk.injEq] at h
          obtain ⟨h1, h2, h3⟩ := h
          rw [← h1, ← h2, ← h3]
          exact hver
        · simp at h
      · simp at h

theorem repair_reports_exact_slice_witness :
    pySliceNat (Char.ofNat 0x1F600 :: ("ab").toList) 1 3 = ("ab").toList ∧
    pySlice (("abc").toList) 1 2 = ("b").toList :=
  ⟨(repair_reports_exact_slice (Char.ofNat 0x1F600 :: ("ab").toList)
      (("ab").toList)).1 2 4 1 3 (by decide),
   (repair_reports_exact_slice (("abc").toList) ((" b ").toList)).2
      0 3 (("b").toList) 1 2 (by decide)⟩

theorem length_takeWhile_add_dropWhile (p : Char → Bool) (s : PyStr) :
    (s.takeWhile p).length + (s.dropWhile p).length = s.length := by
  have h := congrArg List.length (List.takeWhile_append_dropWhile p s)
  rw [List.length_append] at h
  exact h

/-- C8 counterexample: for the empty text, `strip()` is empty, yet
`_trim_whitespace` returns the unchanged tuple with `was_changed=False`
(because the `stripped == original_text` test comes first), not `None` as the
claim states. -/
theorem trim_whitespace_empty_not_dropped :
    trimWhitespace [] 0 3 = some ([], 0, 3, false) ∧ pyStrip [] = [] := by
  constructor
  · rfl
  · rfl

/-- C8 (amended): `_trim_whitespace` returns `None` exactly for a nonempty
all-whitespace text; when `strip()` equals the text (including the empty
text) it returns the text and offsets unchanged with `was_changed=False`;
otherwise it returns the stripped text with `start + leading` and
`end - trailing` where `leading`/`trailing` count the whitespace characters
stripped from the front/back, and `was_changed=True`. -/
theorem trim_whitespace_spec (text : PyStr) (s e : Int) :
    (text ≠ [] → pyStrip text = [] → trimWhitespace text s e = none) ∧
    (pyStrip text = text → trimWhitespace text s e = some (text, s, e, false)) ∧
    (pyStrip text ≠ text → pyStrip text ≠ [] →
      trimWhitespace text s e =
        some (pyStrip text,
          s + ((text.takeWhile isPySpace).length : Int),
          e - ((text.reverse.takeWhile isPySpace).length : Int), true)) := by
  refine ⟨?_, ?_, ?_⟩
  · intro hne hempty
    unfold trimWhitespace
    rw [if_neg (by rw [hempty]; exact fun h => hne h.symm), if_pos hempty]
  · intro heq
    unfold trimWhitespace
    rw [if_pos heq]
  · intro hne hnonempty
    unfold trimWhitespace
    rw [if_neg hne, if_neg hnonempty]
    have hlead : (text.length : Int) - ((pyLStrip text).length : Int) =
        ((text.takeWhile isPySpace).length : Int) := by
      have := length_takeWhile_add_dropWhile isPySpace text
      unfold pyLStrip
      omega
    have htrail : (text.length : Int) - ((pyRStrip text).length : Int) =
        ((text.reverse.takeWhile isPySpace).length : Int) := by
      have := length_takeWhile_add_dropWhile isPySpace text.reverse
      unfold pyRStrip
      rw [List.length_reverse]
      rw [List.length_reverse] at this
      omega
    rw [hlead, htrail]

theorem trim_whitespace_spec_witness :
    trimWhitespace ((" a ").toList) 0 3 =
      some (pyStrip ((" a ").toList),
        0 + ((((" a ").toList).takeWhile isPySpace).length : Int),
        3 - (((((" a ").toList).reverse).takeWhile isPySpace).length : Int),
        true) :=
  (trim_whitespace_spec ((" a ").toList) 0 3).2.2 (by decide) (by decide)

/-!
## Theorems for claims C3 and C10
-/

theorem matchAt_nil_iff (pat : PyStr) (p : Nat) :
    matchAt [] pat p = true ↔ pat = [] := by
  unfold matchAt
  rw [List.drop_nil, List.take_nil, beq_iff_eq]
  exact eq_comm

theorem matchAt_cons_succ (c : Char) (s pat : PyStr) (q : Nat) :
    matchAt (c :: s) pat (q + 1) = matchAt s pat q := by
  unfold matchAt
  rw [List.drop_succ_cons]

theorem pyFind_eq_some_iff (s pat : PyStr) : ∀ p, pyFind s pat = some p ↔
    (matchAt s pat p = true ∧ ∀ q, q < p → matchAt s pat q = false) := by
  induction s with
  | nil =>
    intro p
    unfold pyFind
    constructor
    · intro h
      split at h
      · rename_i hpat
        injection h with h
        subst h
        exact ⟨(matchAt_nil_iff pat 0).mpr hpat, fun q hq => absurd hq (by omega)⟩
      · exact absurd h (by simp)
    · rintro ⟨hm, hq⟩
      have hpat : pat = [] := (matchAt_nil_iff pat p).mp hm
      have hp0 : p = 0 := by
        by_contra hne
        have h0 := hq 0 (by omega)
        rw [hpat] at h0
        have := (matchAt_nil_iff ([] : PyStr) 0).mpr rfl
        rw [h0] at this
        exact Bool.noConfusion this
      subst hp0
      rw [if_pos hpat]
  | cons c rest ih =>
    intro p
    unfold pyFind
    cases hM : matchAt (c :: rest) pat 0 with
    | true =>
      simp only [hM, if_true]
      constructor
      · intro h
        injection h with h
        subst h
        exact ⟨hM, fun q hq => absurd hq (by omega)⟩
      · rintro ⟨hm, hq⟩
        have hp0 : p = 0 := by
          by_contra hne
          have := hq 0 (by omega)
          rw [hM] at this
          exact Bool.noConfusion this
        subst hp0
        rfl
    | false =>
      simp only [hM, if_false, Bool.false_eq_true]
      constructor
      · intro h
        rcases Option.map_eq_some'.mp h with ⟨p', hp', rfl⟩
        obtain ⟨hm', hq'⟩ := (ih p').mp hp'
        refine ⟨by rw [matchAt_cons_succ]; exact hm', ?_⟩
        intro q hq
        cases q with
        | zero => exact hM
        | succ q' =>
          rw [matchAt_cons_succ]
          exact hq' q' (by omega)
      · rintro ⟨hm, hq⟩
        have hp0 : p ≠ 0 := by
          intro h0
          subst h0
          rw [hM] at hm
          exact Bool.noConfusion hm
        obtain ⟨p', rfl⟩ : ∃ p', p = p' + 1 := ⟨p - 1, by omega⟩
        rw [Option.map_eq_some']
        refine ⟨p', (ih p').mpr ⟨?_, ?_⟩, rfl⟩
        · rw [← matchAt_cons_succ c rest pat p']
          exact hm
        · intro q hqq
          have := hq (q + 1) (by omega)
          rwa [matchAt_cons_succ] at this

theorem pyFind_eq_none_iff (s pat : PyStr) :
    pyFind s pat = none ↔ ∀ p, matchAt s pat p = false := by
  constructor
  · intro h p
    by_contra hne
    have hm : matchAt s pat p = true := by
      cases hb : matchAt s pat p
      · exact absurd hb hne
      · rfl
    by_cases hex : ∃ q, matchAt s pat q = true
    · classical
      have hfind := Nat.find_spec hex
      have hmin : ∀ q, q < Nat.find hex → ¬ matchAt s pat q = true :=
        fun q hq => Nat.find_min hex hq
      have : pyFind s pat = some (Nat.find hex) := by
        rw [pyFind_eq_some_iff]
        refine ⟨hfind, fun q hq => ?_⟩
        have := hmin q hq
        cases hb : matchAt s pat q
        · rfl
        · exact absurd hb this
      rw [h] at this
      exact Option.noConfusion this
    · exact hex ⟨p, hm⟩
  · intro h
    cases hb : pyFind s pat with
    | none => rfl
    | some p =>
      have := (pyFind_eq_some_iff s pat p).mp hb
      rw [h p] at this
      exact absurd this.1 (by simp)

theorem stripCR_no_cr (s : PyStr) : '\r' ∉ stripCR s := by
  intro h
  unfold stripCR at h
  have := List.of_mem_filter h
  simp at this

theorem extractHeaders_no_cr (raw : PyStr) : '\r' ∉ extractHeaders raw := by
  unfold extractHeaders
  cases pyFind raw (("\r\n\r\n").toList) with
  | some p => exact stripCR_no_cr _
  | none =>
    cases pyFind raw (("\n\n").toList) with
    | some p => exact stripCR_no_cr _
    | none => exact stripCR_no_cr _

theorem leafSection_content (acc : List EmailSection) (ct : PyStr) (cs : Codec)
    (cte : PyStr) (payload : PartPayload) (path : List Nat) :
    (leafSection acc ct cs cte payload path).content =
      stripCR (cs.dec (decodeTransfer cte payload)) := rfl

mutual

theorem walkParts_pres (P : EmailSection → Prop)
    (hleaf : ∀ acc ct cs cte payload path, P (leafSection acc ct cs cte payload path)) :
    ∀ (msg : Part) (path : List Nat) (acc : List EmailSection),
      (∀ s ∈ acc, P s) → ∀ s ∈ walkParts msg path acc, P s
  | .multi _ parts, path, acc, hacc =>
      walkPartsList_pres P hleaf parts 0 path acc hacc
  | .leaf ct cs cte hH payload, path, acc, hacc => by
      unfold walkParts
      split
      · intro s hs
        rcases List.mem_append.mp hs with h | h
        · exact hacc s h
        · rcases List.mem_singleton.mp h with rfl
          exact hleaf acc ct cs cte payload path
      · exact hacc

theorem walkPartsList_pres (P : EmailSection → Prop)
    (hleaf : ∀ acc ct cs cte payload path, P (leafSection acc ct cs cte payload path)) :
    ∀ (ps : List Part) (i : Nat) (path : List Nat) (acc : List EmailSection),
      (∀ s ∈ acc, P s) → ∀ s ∈ walkPartsList ps i path acc, P s
  | [], _, _, acc, hacc => by
      unfold walkPartsList
      exact hacc
  | p :: ps, i, path, acc, hacc => by
      unfold walkPartsList
      exact walkPartsList_pres P hleaf ps (i + 1) path _
        (walkParts_pres P hleaf p (path ++ [i]) acc hacc)

end

theorem mem_of_mem_enum {α : Type} {l : List α} {p : Nat × α} (h : p ∈ l.enum) :
    p.2 ∈ l := by
  rw [List.enum_eq_zip_range] at h
  rcases p with ⟨i, a⟩
  exact (List.of_mem_zip h).2

/-- C10: every section produced by `extract_sections` has carriage-return-free
content — the header section because `_extract_headers` strips `\r` on every
path, and each body section because `_walk_parts` stores
`decoded_text.replace("\r", "")`. -/
theorem sections_no_carriage_return (raw : PyStr) (msg : Part) :
    ∀ s ∈ extractSections raw msg, '\r' ∉ s.content := by
  intro s hs
  unfold extractSections at hs
  rcases List.mem_cons.mp hs with rfl | hmem
  · exact extractHeaders_no_cr raw
  · rcases List.mem_map.mp hmem with ⟨p, hp, rfl⟩
    have h2 : p.2 ∈ extractBodySections msg := mem_of_mem_enum hp
    have hwalk := walkParts_pres (fun t => '\r' ∉ t.content)
      (fun acc ct cs cte payload path => by
        show '\r' ∉ (leafSection acc ct cs cte payload path).content
        rw [leafSection_content]
        exact stripCR_no_cr _)
      msg [] [] (fun t ht => absurd ht (List.not_mem_nil t))
    exact hwalk p.2 h2

theorem sections_no_carriage_return_witness :
    '\r' ∉ extractHeaders (("A: b\r\n\r\nhi").toList) :=
  sections_no_carriage_return (("A: b\r\n\r\nhi").toList)
    (Part.leaf (("text/plain").toList) asciiCodec (("7bit").toList) true
      (PartPayload.str (("hi").toList)))
    ⟨0, ("HEADERS").toList, ("Email Headers").toList,
      extractHeaders (("A: b\r\n\r\nhi").toList), utf8Codec, ("7bit").toList, []⟩
    (List.mem_cons_self _ _)

/-- C3 counterexample: in `"A\n\nB\r\n\r\nC"` the first blank-line separator
occurring in the string is the `"\n\n"` at position 1, so the claim predicts
header content `"A"`; the code tries `"\r\n\r\n"` first (position 4) and
returns `"A\n\nB"`. -/
theorem extract_sections_header_counterexample :
    ((extractSections (("A\n\nB\r\n\r\nC").toList)
        (Part.leaf (("text/plain").toList) utf8Codec (("7bit").toList) false
          (PartPayload.str (("B\r\n\r\nC").toList)))).head?.map
      (fun s => s.content)) = some (("A\n\nB").toList) ∧
    claimHeaders (("A\n\nB\r\n\r\nC").toList) = ("A").toList ∧
    ("A\n\nB").toList ≠ ("A").toList := by
  refine ⟨by decide, by decide, by decide⟩

/-- C3 (amended): section 0 of `extract_sections(raw)` is a HEADERS section
whose content is the prefix of `raw` before the first occurrence of
`"\r\n\r\n"` when that separator occurs anywhere in the string — the CRLF
separator takes precedence even over an earlier `"\n\n"` — otherwise before
the first occurrence of `"\n\n"`, otherwise the whole string; in every case
with each `"\r"` character removed. -/
theorem extract_sections_header_spec (raw : PyStr) (msg : Part) :
    ∃ s rest, extractSections raw msg = s :: rest ∧
      s.sectionType = ("HEADERS").toList ∧ s.index = 0 ∧
      ((∃ p, matchAt raw (("\r\n\r\n").toList) p = true ∧
          (∀ q, q < p → matchAt raw (("\r\n\r\n").toList) q = false) ∧
          s.content = stripCR (raw.take p)) ∨
       ((∀ p, matchAt raw (("\r\n\r\n").toList) p = false) ∧
        ∃ p, matchAt raw (("\n\n").toList) p = true ∧
          (∀ q, q < p → matchAt raw (("\n\n").toList) q = false) ∧
          s.content = stripCR (raw.take p)) ∨
       ((∀ p, matchAt raw (("\r\n\r\n").toList) p = false) ∧
        (∀ p, matchAt raw (("\n\n").toList) p = false) ∧
        s.content = stripCR raw)) := by
  refine ⟨_, _, rfl, rfl, rfl, ?_⟩
  show (∃ p, _ ∧ _ ∧ extractHeaders raw = stripCR (raw.take p)) ∨ _ ∨ _
  unfold extractHeaders
  cases h1 : pyFind raw (("\r\n\r\n").toList) with
  | some p =>
    obtain ⟨hm, hq⟩ := (pyFind_eq_some_iff raw _ p).mp h1
    exact Or.inl ⟨p, hm, hq, rfl⟩
  | none =>
    have hnone1 := (pyFind_eq_none_iff raw _).mp h1
    cases h2 : pyFind raw (("\n\n").toList) with
    | some p =>
      obtain ⟨hm, hq⟩ := (pyFind_eq_some_iff raw _ p).mp h2
      exact Or.inr (Or.inl ⟨hnone1, p, hm, hq, rfl⟩)
    | none =>
      exact Or.inr (Or.inr ⟨hnone1, (pyFind_eq_none_iff raw _).mp h2, rfl⟩)

/-!
## Theorems for claim C5
-/

theorem effTag_shiftAnn (k : Int) (a : Ann) : effTag (shiftAnn k a) = effTag a := rfl

theorem specReplace_nil (content : PyStr) : specReplace content [] = content := by
  rw [specReplace]

theorem specReplace_cons (content : PyStr) (a : Ann) (rest : List Ann) :
    specReplace content (a :: rest) =
      content.take a.startOffset.toNat ++ effTag a ++
        specReplace (content.drop a.endOffset.toNat) (rest.map (shiftAnn a.endOffset)) := by
  rw [specReplace]

theorem specReplace_take_drop (content : PyStr) (m : Nat) (L : List Ann)
    (hm : m ≤ content.length)
    (hhead : ∀ b ∈ L.head?, ((m : Int) ≤ b.startOffset ∧ b.startOffset ≤ b.endOffset)) :
    specReplace content L = content.take m ++ specReplace (content.drop m) (L.map (shiftAnn m)) := by
  cases L with
  | nil =>
    rw [List.map_nil, specReplace_nil, specReplace_nil, List.take_append_drop]
  | cons b rest =>
    obtain ⟨h1, h2⟩ := hhead b rfl
    have hs : (shiftAnn (m : Int) b).startOffset.toNat = b.startOffset.toNat - m := by
      simp only [shiftAnn]
      omega
    have he : (shiftAnn (m : Int) b).endOffset.toNat = b.endOffset.toNat - m := by
      simp only [shiftAnn]
      omega
    have htake : content.take m ++ (content.drop m).take (b.startOffset.toNat - m) =
        content.take b.startOffset.toNat := by
      rw [← List.take_add]
      congr 1
      omega
    have hdrop : (content.drop m).drop (b.endOffset.toNat - m) =
        content.drop b.endOffset.toNat := by
      rw [List.drop_drop]
      congr 1
      omega
    have hmap : (rest.map (shiftAnn (m : Int))).map (shiftAnn ((shiftAnn (m : Int) b).endOffset)) =
        rest.map (shiftAnn b.endOffset) := by
      rw [List.map_map]
      apply List.map_congr_left
      intro x _
      simp only [Function.comp, shiftAnn]
      congr 1 <;> omega
    rw [List.map_cons, specReplace_cons, specReplace_cons, hs, he, effTag_shiftAnn,
      hmap, hdrop, ← htake]
    simp only [List.append_assoc]

theorem chain_head_le (a : Ann) (rest : List Ann)
    (hchain : List.Chain' (fun x y => x.endOffset ≤ y.startOffset) (a :: rest))
    (hin : ∀ b ∈ rest, b.startOffset < b.endOffset) :
    ∀ b ∈ rest, a.endOffset ≤ b.startOffset := by
  induction rest generalizing a with
  | nil => intro b hb; cases hb
  | cons c rest' ih =>
    intro b hb
    have h1 : a.endOffset ≤ c.startOffset := List.chain'_cons.mp hchain |>.1
    rcases List.mem_cons.mp hb with rfl | hb'
    · exact h1
    · have h2 := ih c (List.chain'_cons.mp hchain).2
        (fun x hx => hin x (List.mem_cons_of_mem _ hx)) b hb'
      have hc : c.startOffset < c.endOffset := hin c (List.mem_cons_self _ _)
      omega

theorem chain_pairwise_lt (asc : List Ann)
    (hchain : List.Chain' (fun x y => x.endOffset ≤ y.startOffset) asc)
    (hin : ∀ b ∈ asc, b.startOffset < b.endOffset) :
    List.Pairwise (fun x y => x.startOffset < y.startOffset) asc := by
  induction asc with
  | nil => exact List.Pairwise.nil
  | cons a rest ih =>
    refine List.Pairwise.cons ?_
      (ih hchain.tail (fun b hb => hin b (List.mem_cons_of_mem _ hb)))
    intro b hb
    have hle := chain_head_le a rest hchain
      (fun x hx => hin x (List.mem_cons_of_mem _ hx)) b hb
    have ha := hin a (List.mem_cons_self _ _)
    omega

theorem foldr_splice_eq_spec (content : PyStr) (asc : List Ann)
    (hchain : List.Chain' (fun x y => x.endOffset ≤ y.startOffset) asc)
    (hin : ∀ a ∈ asc, 0 ≤ a.startOffset ∧ a.startOffset < a.endOffset ∧
      a.endOffset ≤ (content.length : Int)) :
    asc.foldr (fun a res => splice res a) content = specReplace content asc := by
  induction asc with
  | nil => rw [List.foldr_nil, specReplace_nil]
  | cons a rest ih =>
    have hrest_in : ∀ b ∈ rest, 0 ≤ b.startOffset ∧ b.startOffset < b.endOffset ∧
        b.endOffset ≤ (content.length : Int) :=
      fun b hb => hin b (List.mem_cons_of_mem _ hb)
    obtain ⟨ha0, halt, hale⟩ := hin a (List.mem_cons_self _ _)
    rw [List.foldr_cons, ih hchain.tail hrest_in]
    have hhead_le : ∀ b ∈ rest, a.endOffset ≤ b.startOffset :=
      chain_head_le a rest hchain (fun b hb => (hrest_in b hb).2.1)
    have he_le : a.endOffset.toNat ≤ content.length := by omega
    have hcast : ((a.endOffset.toNat : Nat) : Int) = a.endOffset := by omega
    have hspec_rest := specReplace_take_drop content a.endOffset.toNat rest he_le
      (by
        intro b hb
        have hbmem : b ∈ rest := List.mem_of_mem_head? hb
        exact ⟨by have := hhead_le b hbmem; omega, le_of_lt (hrest_in b hbmem).2.1⟩)
    rw [hspec_rest, specReplace_cons]
    have hlen_take : (content.take a.endOffset.toNat).length = a.endOffset.toNat :=
      by rw [List.length_take]; omega
    unfold splice pySliceTo pySliceFrom pyBound
    set Y := specReplace (content.drop a.endOffset.toNat)
      (rest.map (shiftAnn ((a.endOffset.toNat : Nat) : Int))) with hY
    have hXlen : (content.take a.endOffset.toNat ++ Y).length =
        a.endOffset.toNat + Y.length := by
      rw [List.length_append, hlen_take]
    have hns : ¬ (a.startOffset < 0) := by omega
    have hne : ¬ (a.endOffset < 0) := by omega
    rw [if_neg hns, if_neg hne]
    have hmin_s : min a.startOffset.toNat (content.take a.endOffset.toNat ++ Y).length =
        a.startOffset.toNat := by
      rw [hXlen]
      omega
    have hmin_e : min a.endOffset.toNat (content.take a.endOffset.toNat ++ Y).length =
        a.endOffset.toNat := by
      rw [hXlen]
      omega
    rw [hmin_s, hmin_e]
    have htakeX : (content.take a.endOffset.toNat ++ Y).take a.startOffset.toNat =
        content.take a.startOffset.toNat := by
      rw [List.take_append_eq_append_take, hlen_take]
      have h0 : a.startOffset.toNat - a.endOffset.toNat = 0 := by omega
      rw [h0, List.take_zero, List.append_nil, List.take_take]
      congr 1
      omega
    have hdropX : (content.take a.endOffset.toNat ++ Y).drop a.endOffset.toNat = Y := by
      have h := List.drop_left (content.take a.endOffset.toNat) Y
      rw [hlen_take] at h
      exact h
    rw [htakeX, hdropX, hY]
    have hmapcast : rest.map (shiftAnn ((a.endOffset.toNat : Nat) : Int)) =
        rest.map (shiftAnn a.endOffset) := by rw [hcast]
    rw [hmapcast]

/-- C5: `_apply_replacements` splices the annotations in descending order of
`start_offset` (the sorted list is exactly the reverse of the ascending
enumeration), and for every set of pairwise non-overlapping annotations with
`0 ≤ start_offset < end_offset ≤ len(content)` the result equals the content
with each range `[start_offset, end_offset)` replaced by the annotation's
tag, or by `"[" + class_name + "]"` when no (truthy) tag is set. -/
theorem apply_replacements_spec (content : PyStr) (anns asc : List Ann)
    (hperm : anns.Perm asc)
    (hchain : List.Chain' (fun x y => x.endOffset ≤ y.startOffset) asc)
    (hin : ∀ a ∈ asc, 0 ≤ a.startOffset ∧ a.startOffset < a.endOffset ∧
      a.endOffset ≤ (content.length : Int)) :
    sortByStartDesc anns = asc.reverse ∧
    applyReplacements content anns = specReplace content asc := by
  have hlt : List.Pairwise (fun x y => x.startOffset < y.startOffset) asc :=
    chain_pairwise_lt asc hchain (fun b hb => (hin b hb).2.1)
  have hsorted_ins : List.Sorted descStart (sortByStartDesc anns) :=
    List.sorted_insertionSort descStart anns
  have hperm2 : (sortByStartDesc anns).Perm asc.reverse :=
    ((List.perm_insertionSort descStart anns).trans hperm).trans
      (List.reverse_perm asc).symm
  have hne_asc : List.Pairwise (fun x y : Ann => x.startOffset ≠ y.startOffset) asc :=
    hlt.imp (fun h => ne_of_lt h)
  have hsymm : Symmetric (fun x y : Ann => x.startOffset ≠ y.startOffset) :=
    fun x y h => Ne.symm h
  have hne_rev : List.Pairwise (fun x y : Ann => x.startOffset ≠ y.startOffset)
      asc.reverse :=
    List.pairwise_reverse.mpr (hne_asc.imp (fun h => Ne.symm h))
  have hne_ins : List.Pairwise (fun x y : Ann => x.startOffset ≠ y.startOffset)
      (sortByStartDesc anns) :=
    List.Pairwise.perm hne_rev hperm2.symm (fun h => Ne.symm h)
  have hstrict_ins : List.Sorted gtStart (sortByStartDesc anns) := by
    have hand := List.Pairwise.and hsorted_ins hne_ins
    exact hand.imp (fun h => lt_of_le_of_ne h.1 (Ne.symm h.2))
  have hstrict_rev : List.Sorted gtStart asc.reverse :=
    List.pairwise_reverse.mpr hlt
  have heq : sortByStartDesc anns = asc.reverse :=
    List.eq_of_perm_of_sorted hperm2 hstrict_ins hstrict_rev
  refine ⟨heq, ?_⟩
  unfold applyReplacements
  rw [heq, List.foldl_reverse]
  exact foldr_splice_eq_spec content asc hchain hin

theorem apply_replacements_spec_witness :
    sortByStartDesc [⟨0, 5, [], ("greeting").toList⟩,
        ⟨6, 11, ("[name]").toList, ("name").toList⟩] =
      ([⟨0, 5, [], ("greeting").toList⟩,
        ⟨6, 11, ("[name]").toList, ("name").toList⟩] : List Ann).reverse ∧
    applyReplacements (("Hello world").toList)
        [⟨0, 5, [], ("greeting").toList⟩,
         ⟨6, 11, ("[name]").toList, ("name").toList⟩] =
      specReplace (("Hello world").toList)
        [⟨0, 5, [], ("greeting").toList⟩,
         ⟨6, 11, ("[name]").toList, ("name").toList⟩] :=
  apply_replacements_spec (("Hello world").toList) _ _
    (List.Perm.refl _)
    (List.chain'_cons.mpr ⟨by decide, List.chain'_singleton _⟩)
    (by decide)

/-!
## Theorems for claim C9
-/

theorem walkDeidentifyList_get (sbp : List EmailSection) (abs : Nat → List Ann) :
    ∀ (ps : List Part) (j : Nat) (path0 : List Nat) (i : Nat),
      (walkDeidentifyList sbp abs ps j path0).get? i =
        (ps.get? i).map (fun c => walkAndDeidentify sbp abs c (path0 ++ [j + i])) := by
  intro ps
  induction ps with
  | nil =>
    intro j path0 i
    rw [walkDeidentifyList]
    simp
  | cons p ps ih =>
    intro j path0 i
    rw [walkDeidentifyList]
    cases i with
    | zero => simp
    | succ i' =>
      simp only [List.get?_cons_succ]
      rw [ih (j + 1) path0 i']
      have : j + 1 + i' = j + (i' + 1) := by omega
      rw [this]

theorem walk_unmatched (sbp : List EmailSection) (abs : Nat → List Ann) :
    ∀ (p : List Nat) (part : Part) (path0 : List Nat) (ct : PyStr) (cs : Codec)
      (cte : PyStr) (hH : Bool) (payload : PartPayload),
      getPart part p = some (.leaf ct cs cte hH payload) →
      sectionByPath sbp (path0 ++ p) = none →
      getPart (walkAndDeidentify sbp abs part path0) p =
        some (.leaf ct cs cte hH payload) := by
  intro p
  induction p with
  | nil =>
    intro part path0 ct cs cte hH payload h1 h2
    rw [getPart] at h1
    injection h1 with h1
    subst h1
    rw [List.append_nil] at h2
    rw [walkAndDeidentify]
    split
    · rw [h2, getPart]
    · rw [getPart]
  | cons i rest ih =>
    intro part path0 ct cs cte hH payload h1 h2
    cases part with
    | leaf a b c d e => rw [getPart] at h1; exact absurd h1 (by simp)
    | multi rct parts =>
      rw [getPart] at h1
      cases hc : parts.get? i with
      | none => rw [hc] at h1; exact absurd h1 (by simp)
      | some c =>
        rw [hc] at h1
        rw [walkAndDeidentify, getPart, walkDeidentifyList_get, hc]
        simp only [Option.map_some, Nat.zero_add]
        exact ih c (path0 ++ [i]) ct cs cte hH payload h1
          (by rw [List.append_assoc]; exact h2)

/-- C9: during reassembly of a multipart message, a `text/*` leaf whose MIME
path has no extracted section passes through completely unchanged — original
payload, no replacement, headers (content type, charset, CTE) untouched. -/
theorem unmatched_leaf_passthrough (raw : PyStr) (rootCT : PyStr) (parts : List Part)
    (secs : List EmailSection) (abs : Nat → List Ann) (p : List Nat) (ct : PyStr)
    (cs : Codec) (cte : PyStr) (hH : Bool) (payload : PartPayload)
    (hleaf : getPart (.multi rootCT parts) p = some (.leaf ct cs cte hH payload))
    (htext : ct.take 5 = ("text/").toList)
    (hnosec : sectionByPath
      (secs.filter (fun s => s.sectionType ≠ ("HEADERS").toList)) p = none) :
    getPart (deidentifyAndReassemble raw (.multi rootCT parts) secs abs) p =
      some (.leaf ct cs cte hH payload) := by
  rw [deidentifyAndReassemble]
  exact walk_unmatched _ abs p (.multi rootCT parts) [] ct cs cte hH payload hleaf
    (by rw [List.nil_append]; exact hnosec)

theorem unmatched_leaf_passthrough_witness :
    getPart
      (deidentifyAndReassemble (("From: x\n\nhi").toList)
        (Part.multi (("multipart/mixed").toList)
          [Part.leaf (("text/plain").toList) asciiCodec (("7bit").toList) true
            (PartPayload.str (("hi").toList))])
        [] (fun _ => [])) [0] =
      some (Part.leaf (("text/plain").toList) asciiCodec (("7bit").toList) true
        (PartPayload.str (("hi").toList))) :=
  unmatched_leaf_passthrough (("From: x\n\nhi").toList) (("multipart/mixed").toList)
    [Part.leaf (("text/plain").toList) asciiCodec (("7bit").toList) true
      (PartPayload.str (("hi").toList))]
    [] (fun _ => []) [0] (("text/plain").toList) asciiCodec (("7bit").toList) true
    (PartPayload.str (("hi").toList)) rfl rfl rfl

/-!
## Theorems for claim C6
-/

theorem qpPass1_adv_aux : ∀ (n : Nat) (s : PyStr), s.length ≤ n →
    ∀ bp, QPAdv s bp (qpPass1 s bp) := by
  intro n
  induction n with
  | zero =>
    intro s hs bp
    have hnil : s = [] := List.eq_nil_of_length_eq_zero (Nat.le_zero.mp hs)
    subst hnil
    rw [qpPass1]
    exact QPAdv.nil bp
  | succ n ih =>
    intro s hs bp
    cases s with
    | nil =>
      rw [qpPass1]
      exact QPAdv.nil bp
    | cons c rest =>
      rw [qpPass1]
      by_cases h1 : c = '=' ∧ rest.head? = some '\n'
      · rw [if_pos h1]
        obtain ⟨hc, hh⟩ := h1
        subst hc
        obtain ⟨rest2, hrest⟩ : ∃ r2, rest = '\n' :: r2 := by
          cases rest with
          | nil => exact absurd hh (by simp)
          | cons a r =>
            simp only [List.head?_cons, Option.some.injEq] at hh
            exact ⟨r, by rw [hh]⟩
        subst hrest
        simp only [List.tail_cons]
        refine QPAdv.soft rest2 bp _ (ih rest2 ?_ bp)
        simp only [List.length_cons] at hs
        omega
      · rw [if_neg h1]
        by_cases h2 : c = '=' ∧ 2 ≤ rest.length ∧
            isHexChar (rest.headD ' ') ∧ isHexChar (rest.tail.headD ' ')
        · rw [if_pos h2]
          obtain ⟨hc, hlen, hx1, hx2⟩ := h2
          subst hc
          obtain ⟨c1, c2, rest2, hrest⟩ : ∃ c1 c2 r2, rest = c1 :: c2 :: r2 := by
            cases rest with
            | nil => simp at hlen
            | cons a r =>
              cases r with
              | nil => simp at hlen
              | cons b r2 => exact ⟨a, b, r2, rfl⟩
          subst hrest
          simp only [List.headD_cons, List.tail_cons] at hx1 hx2 ⊢
          refine QPAdv.pair c1 c2 rest2 bp _ hx1 hx2 (ih rest2 ?_ (bp + 1))
          simp only [List.length_cons] at hs
          omega
        · rw [if_neg h2]
          refine QPAdv.other c rest bp _ ?_ (ih rest ?_ (bp + 1))
          · intro hspec
            rcases hspec with ⟨r2, heq⟩ | ⟨c1, c2, r2, heq, hx1, hx2⟩
            · injection heq with e1 e2
              exact h1 ⟨e1, by rw [e2]; rfl⟩
            · injection heq with e1 e2
              refine h2 ⟨e1, ?_, ?_, ?_⟩ <;> rw [e2]
              · simp
              · simpa using hx1
              · simpa using hx2
          · simp only [List.length_cons] at hs
            omega

/-- The raw-to-byte table built by pass 1 advances exactly per the claim's
quoted-printable grammar. -/
theorem qpPass1_adv (s : PyStr) (bp : Nat) : QPAdv s bp (qpPass1 s bp) :=
  qpPass1_adv_aux s.length s (le_refl _) bp

theorem encStr_nil (cs : Codec) : encStr cs [] = [] := rfl

theorem encStr_cons (cs : Codec) (c : Char) (rest : PyStr) :
    encStr cs (c :: rest) = cs.enc c ++ encStr cs rest := by
  unfold encStr
  rw [List.map_cons, List.flatten_cons]

theorem encStr_append (cs : Codec) (a b : PyStr) :
    encStr cs (a ++ b) = encStr cs a ++ encStr cs b := by
  unfold encStr
  rw [List.map_append, List.flatten_append]

theorem decodedPrefixBytes_zero (cs : Codec) (s : PyStr) :
    decodedPrefixBytes cs s 0 = 0 := by
  unfold decodedPrefixBytes
  rw [List.take_zero, encStr_nil]
  rfl

theorem decodedPrefixBytes_succ_cons (cs : Codec) (c : Char) (rest : PyStr) (j : Nat) :
    decodedPrefixBytes cs (c :: rest) (j + 1) =
      (cs.enc c).length + decodedPrefixBytes cs rest j := by
  unfold decodedPrefixBytes
  rw [List.take_succ_cons, encStr_cons, List.length_append]

theorem decodedPrefixBytes_le_total (cs : Codec) (s : PyStr) (k : Nat) :
    decodedPrefixBytes cs s k ≤ (encStr cs s).length := by
  unfold decodedPrefixBytes
  conv_rhs => rw [← List.take_append_drop k s]
  rw [encStr_append, List.length_append]
  omega

theorem getD_take {α : Type} (l : List α) (n i : Nat) (d : α) (h : i < n) :
    (l.take n).getD i d = l.getD i d := by
  induction l generalizing n i with
  | nil => simp
  | cons x xs ih =>
    cases n with
    | zero => omega
    | succ n' =>
      cases i with
      | zero => simp
      | succ i' =>
        simp only [List.take_succ_cons, List.getD_cons_succ]
        exact ih n' i' (by omega)

theorem getD_replicate {α : Type} (n : Nat) (a d : α) (i : Nat) (h : i < n) :
    (List.replicate n a).getD i d = a := by
  induction n generalizing i with
  | zero => omega
  | succ n' ih =>
    cases i with
    | zero => rfl
    | succ i' =>
      rw [List.replicate_succ, List.getD_cons_succ]
      exact ih i' (by omega)

theorem countP_range_succ_shift (n : Nat) (f : Nat → Bool) :
    (List.range (n + 1)).countP f =
      (if f 0 then 1 else 0) + (List.range n).countP (fun j => f (j + 1)) := by
  rw [List.range_succ_eq_map, List.countP_cons, List.countP_map]
  have hcomp : (f ∘ Nat.succ) = (fun j => f (j + 1)) := rfl
  rw [hcomp]
  omega

theorem btcFlat_length (cs : Codec) : ∀ (s : PyStr) (idx : Nat),
    (btcFlat cs s idx).length = (encStr cs s).length := by
  intro s
  induction s with
  | nil =>
    intro idx
    rw [btcFlat, encStr_nil]
  | cons c rest ih =>
    intro idx
    rw [btcFlat, encStr_cons, List.length_append, List.length_append,
      List.length_replicate, ih]

theorem btcFlat_getD (cs : Codec) : ∀ (s : PyStr) (idx b d : Nat),
    b < (btcFlat cs s idx).length →
    (btcFlat cs s idx).getD b d =
      idx + (List.range s.length).countP
        (fun j => decodedPrefixBytes cs s (j + 1) ≤ b) := by
  intro s
  induction s with
  | nil =>
    intro idx b d hb
    rw [btcFlat] at hb
    simp at hb
  | cons c rest ih =>
    intro idx b d hb
    rw [btcFlat] at hb ⊢
    by_cases hlt : b < (cs.enc c).length
    · rw [List.getD_append _ _ _ _ (by rw [List.length_replicate]; exact hlt),
        getD_replicate _ _ _ _ hlt]
      have hzero : (List.range (c :: rest).length).countP
          (fun j => decodedPrefixBytes cs (c :: rest) (j + 1) ≤ b) = 0 := by
        rw [List.countP_eq_zero]
        intro j _
        simp only [decide_eq_true_eq]
        intro hle
        have hmono : (cs.enc c).length ≤ decodedPrefixBytes cs (c :: rest) (j + 1) := by
          rw [decodedPrefixBytes_succ_cons]
          omega
        omega
      rw [hzero]
      omega
    · push_neg at hlt
      rw [List.getD_append_right _ _ _ _ (by rw [List.length_replicate]; exact hlt)]
      rw [List.length_replicate]
      have hb' : b - (cs.enc c).length < (btcFlat cs rest (idx + 1)).length := by
        rw [List.length_append, List.length_replicate] at hb
        rw [btcFlat_length] at hb ⊢
        omega
      rw [ih (idx + 1) (b - (cs.enc c).length) d hb']
      rw [List.length_cons, countP_range_succ_shift]
      have h0 : (decide (decodedPrefixBytes cs (c :: rest) (0 + 1) ≤ b)) = true := by
        simp only [decide_eq_true_eq, decodedPrefixBytes_succ_cons,
          decodedPrefixBytes_zero]
        omega
      have hshift : ∀ j, (decide (decodedPrefixBytes cs (c :: rest) (j + 1 + 1) ≤ b)) =
          (decide (decodedPrefixBytes cs rest (j + 1) ≤ b - (cs.enc c).length)) := by
        intro j
        have := decodedPrefixBytes_succ_cons cs c rest (j + 1)
        by_cases hc : decodedPrefixBytes cs rest (j + 1) ≤ b - (cs.enc c).length
        · rw [decide_eq_true hc, decide_eq_true (by omega)]
        · rw [decide_eq_false hc, decide_eq_false (by omega)]
      have hcongr : (List.range rest.length).countP
            (fun j => decodedPrefixBytes cs (c :: rest) (j + 1 + 1) ≤ b) =
          (List.range rest.length).countP
            (fun j => decodedPrefixBytes cs rest (j + 1) ≤ b - (cs.enc c).length) := by
        apply List.countP_congr
        intro j _
        rw [hshift j]
      rw [h0] at *
      simp only [h0, if_true]
      rw [hcongr]
      omega

theorem byteToCharTable_getD (cs : Codec) (s : PyStr) (N b : Nat) (hb : b ≤ N) :
    (byteToCharTable cs s N).getD b s.length = byteToCharSpec cs s b := by
  unfold byteToCharTable byteToCharSpec
  rw [getD_take _ _ _ _ (by omega)]
  by_cases hlt : b < (btcFlat cs s 0).length
  · rw [List.getD_append _ _ _ _ hlt, btcFlat_getD cs s 0 b _ hlt]
    omega
  · push_neg at hlt
    rw [List.getD_append_right _ _ _ _ hlt]
    have hfl : (btcFlat cs s 0).length = (encStr cs s).length := btcFlat_length cs s 0
    rw [getD_replicate _ _ _ _ (by omega)]
    have hall : (List.range s.length).countP
        (fun j => decodedPrefixBytes cs s (j + 1) ≤ b) = s.length := by
      conv_rhs => rw [← List.length_range s.length]
      rw [List.countP_eq_length]
      intro j _
      simp only [decide_eq_true_eq]
      have := decodedPrefixBytes_le_total cs s (j + 1)
      omega
    rw [hall]

/-- C6: pass 1 of `_build_qp_offset_table` advances exactly per the QP
grammar (valid `=XX` hex pair: 3 raw characters, 1 decoded byte; soft break
`=\n`: 2 raw characters, 0 decoded bytes; any other raw character: 1 raw
character, 1 decoded byte), and the returned table is that byte table
composed (after the source's clamp to the decoded length) with the
byte-position-to-codepoint-position mapping of the decoded string in the
given charset. -/
theorem build_qp_offset_table_spec (body : PyStr) (cs : Codec) :
    QPAdv body 0 (qpPass1 body 0) ∧
    (∀ i b, (qpPass1 body 0).get? i = some b →
      (buildQpOffsetTable body cs).get? i =
        some (byteToCharSpec cs (cs.dec (a2bQP (encStr asciiCodec body)))
          (min b (a2bQP (encStr asciiCodec body)).length))) := by
  refine ⟨qpPass1_adv body 0, ?_⟩
  intro i b hib
  unfold buildQpOffsetTable
  rw [List.get?_map, hib]
  rw [Option.map_some']
  congr 1
  exact byteToCharTable_getD cs _ _ _ (min_le_right _ _)

theorem build_qp_offset_table_spec_witness :
    (buildQpOffsetTable (("=41").toList) utf8Codec).get? 3 =
      some (byteToCharSpec utf8Codec
        (utf8Codec.dec (a2bQP (encStr asciiCodec (("=41").toList))))
        (min 1 (a2bQP (encStr asciiCodec (("=41").toList))).length)) :=
  (build_qp_offset_table_spec (("=41").toList) utf8Codec).2 3 1
    (by simp [qpPass1, isHexChar])

/-!
## Theorems for claim C7
-/

theorem sorted_getD_mono (t : List Nat) (hs : List.Sorted (· ≤ ·) t)
    (i j : Nat) (hij : i ≤ j) (hj : j < t.length) : t.getD i 0 ≤ t.getD j 0 := by
  induction t generalizing i j with
  | nil => simp at hj
  | cons x xs ih =>
    cases j with
    | zero =>
      have hi0 : i = 0 := by omega
      subst hi0
      exact le_refl _
    | succ j' =>
      cases i with
      | zero =>
        rw [List.getD_cons_zero, List.getD_cons_succ]
        have hj' : j' < xs.length := by
          simp only [List.length_cons] at hj
          omega
        have hmem : xs.getD j' 0 ∈ xs := by
          rw [List.getD_eq_getElem _ _ hj']
          exact List.getElem_mem _
        exact (List.pairwise_cons.mp hs).1 _ hmem
      | succ i' =>
        rw [List.getD_cons_succ, List.getD_cons_succ]
        exact ih (List.pairwise_cons.mp hs).2 i' j' (by omega)
          (by simp only [List.length_cons] at hj; omega)

theorem bodyDecodedLocal_le (qpMap : Option (List Nat)) (dlen cs ce bodyLen loc : Nat) :
    bodyDecodedLocal qpMap dlen cs ce bodyLen loc ≤ dlen := by
  cases qpMap with
  | none => exact min_le_right _ _
  | some t =>
    rw [bodyDecodedLocal]
    by_cases h1 : loc < cs
    · rw [if_pos h1]; exact Nat.zero_le _
    · rw [if_neg h1]
      by_cases h2 : ce ≤ loc
      · rw [if_pos h2]
      · rw [if_neg h2]; exact min_le_right _ _

theorem bodyDecodedLocal_mono (qpMap : Option (List Nat)) (dlen cs ce bodyLen : Nat)
    (htab : ∀ t, qpMap = some t → (t ≠ [] ∧ List.Sorted (· ≤ ·) t))
    (loc1 loc2 : Nat) (h12 : loc1 ≤ loc2) :
    bodyDecodedLocal qpMap dlen cs ce bodyLen loc1 ≤
      bodyDecodedLocal qpMap dlen cs ce bodyLen loc2 := by
  cases qpMap with
  | none =>
    rw [bodyDecodedLocal, bodyDecodedLocal]
    exact min_le_min (Nat.div_le_div_right (Nat.mul_le_mul_right _ h12)) (le_refl _)
  | some t =>
    obtain ⟨hne, hsort⟩ := htab t rfl
    have hlen : 0 < t.length := List.length_pos.mpr hne
    rw [bodyDecodedLocal, bodyDecodedLocal]
    by_cases h1 : loc1 < cs
    · rw [if_pos h1]
      exact Nat.zero_le _
    · rw [if_neg h1, if_neg (show ¬ loc2 < cs by omega)]
      by_cases h2 : ce ≤ loc1
      · rw [if_pos h2, if_pos (show ce ≤ loc2 by omega)]
      · rw [if_neg h2]
        by_cases h3 : ce ≤ loc2
        · rw [if_pos h3]
          exact min_le_right _ _
        · rw [if_neg h3]
          refine min_le_min ?_ (le_refl _)
          exact sorted_getD_mono t hsort _ _
            (min_le_min (by omega) (le_refl _)) (by omega)

theorem mapFnGo_lower (events : List OffsetEvent) : ∀ (cum : Int) (m off : Nat),
    WFEvents events → (∀ e ∈ events, m ≤ eventStart e) → m ≤ off →
    (m : Int) - cum ≤ mapFnGo events cum off := by
  induction events with
  | nil =>
    intro cum m off _ _ hmoff
    rw [mapFnGo]
    omega
  | cons ev rest ih =>
    intro cum m off hwf hstart hmoff
    obtain ⟨hpw, hok⟩ := hwf
    have hpw' := List.pairwise_cons.mp hpw
    have hwf_rest : WFEvents rest :=
      ⟨hpw'.2, fun e he => hok e (List.mem_cons_of_mem _ he)⟩
    cases ev with
    | cte s e repl =>
      have hse : s ≤ e := hok _ (List.mem_cons_self _ _)
      have hms : m ≤ s := hstart _ (List.mem_cons_self _ _)
      rw [mapFnGo]
      by_cases h1 : off < s
      · rw [if_pos h1]; omega
      · rw [if_neg h1]
        by_cases h2 : off < e
        · rw [if_pos h2]; omega
        · rw [if_neg h2]
          have hlow := ih (cum + ((e : Int) - (s : Int) - (repl : Int))) e off
            hwf_rest (fun e' he' => hpw'.1 e' he') (by omega)
          omega
    | body s e dlen qpMap cs ce =>
      have hok0 : s ≤ e ∧ ∀ t, qpMap = some t → (t ≠ [] ∧ List.Sorted (· ≤ ·) t) :=
        hok _ (List.mem_cons_self _ _)
      have hms : m ≤ s := hstart _ (List.mem_cons_self _ _)
      rw [mapFnGo]
      by_cases h1 : off < s
      · rw [if_pos h1]; omega
      · rw [if_neg h1]
        by_cases h2 : off ≤ e
        · rw [if_pos h2]
          have hq := Int.natCast_nonneg (bodyDecodedLocal qpMap dlen cs ce (e - s) (off - s))
          omega
        · rw [if_neg h2]
          have hlow := ih (cum + ((e : Int) - (s : Int) - (dlen : Int))) e off
            hwf_rest (fun e' he' => hpw'.1 e' he') (by omega)
          have hse := hok0.1
          omega

theorem mapFnGo_monotone (events : List OffsetEvent) : ∀ (cum : Int) (a b : Nat),
    WFEvents events → a ≤ b → mapFnGo events cum a ≤ mapFnGo events cum b := by
  induction events with
  | nil =>
    intro cum a b _ hab
    rw [mapFnGo, mapFnGo]
    omega
  | cons ev rest ih =>
    intro cum a b hwf hab
    obtain ⟨hpw, hok⟩ := hwf
    have hpw' := List.pairwise_cons.mp hpw
    have hwf_rest : WFEvents rest :=
      ⟨hpw'.2, fun e he => hok e (List.mem_cons_of_mem _ he)⟩
    cases ev with
    | cte s e repl =>
      have hse : s ≤ e := hok _ (List.mem_cons_self _ _)
      rw [mapFnGo, mapFnGo]
      by_cases hb1 : b < s
      · rw [if_pos (show a < s by omega), if_pos hb1]
        omega
      · rw [if_neg hb1]
        by_cases ha1 : a < s
        · rw [if_pos ha1]
          by_cases hb2 : b < e
          · rw [if_pos hb2]; omega
          · rw [if_neg hb2]
            have hlow := mapFnGo_lower rest (cum + ((e : Int) - (s : Int) - (repl : Int)))
              e b hwf_rest (fun e' he' => hpw'.1 e' he') (by omega)
            omega
        · rw [if_neg ha1]
          by_cases ha2 : a < e
          · rw [if_pos ha2]
            by_cases hb2 : b < e
            · rw [if_pos hb2]
            · rw [if_neg hb2]
              have hlow := mapFnGo_lower rest (cum + ((e : Int) - (s : Int) - (repl : Int)))
                e b hwf_rest (fun e' he' => hpw'.1 e' he') (by omega)
              omega
          · rw [if_neg ha2, if_neg (show ¬ b < e by omega)]
            exact ih _ a b hwf_rest hab
    | body s e dlen qpMap cs ce =>
      have hok0 : s ≤ e ∧ ∀ t, qpMap = some t → (t ≠ [] ∧ List.Sorted (· ≤ ·) t) :=
        hok _ (List.mem_cons_self _ _)
      have hse := hok0.1
      rw [mapFnGo, mapFnGo]
      by_cases hb1 : b < s
      · rw [if_pos (show a < s by omega), if_pos hb1]
        omega
      · rw [if_neg hb1]
        by_cases ha1 : a < s
        · rw [if_pos ha1]
          by_cases hb2 : b ≤ e
          · rw [if_pos hb2]
            have hq := Int.natCast_nonneg (bodyDecodedLocal qpMap dlen cs ce (e - s) (b - s))
            omega
          · rw [if_neg hb2]
            have hlow := mapFnGo_lower rest (cum + ((e : Int) - (s : Int) - (dlen : Int)))
              e b hwf_rest (fun e' he' => hpw'.1 e' he') (by omega)
            omega
        · rw [if_neg ha1]
          by_cases ha2 : a ≤ e
          · rw [if_pos ha2]
            by_cases hb2 : b ≤ e
            · rw [if_pos hb2]
              have hmono := bodyDecodedLocal_mono qpMap dlen cs ce (e - s)
                hok0.2 (a - s) (b - s) (by omega)
              omega
            · rw [if_neg hb2]
              have hbound := bodyDecodedLocal_le qpMap dlen cs ce (e - s) (a - s)
              have hlow := mapFnGo_lower rest (cum + ((e : Int) - (s : Int) - (dlen : Int)))
                e b hwf_rest (fun e' he' => hpw'.1 e' he') (by omega)
              omega
          · rw [if_neg ha2, if_neg (show ¬ b ≤ e by omega)]
            exact ih _ a b hwf_rest hab

theorem qpPass1_ne_nil (s : PyStr) (bp : Nat) : qpPass1 s bp ≠ [] := by
  cases s with
  | nil => rw [qpPass1]; simp
  | cons c rest =>
    rw [qpPass1]
    by_cases h1 : c = '=' ∧ rest.head? = some '\n'
    · rw [if_pos h1]; simp
    · rw [if_neg h1]
      by_cases h2 : c = '=' ∧ 2 ≤ rest.length ∧
          isHexChar (rest.headD ' ') ∧ isHexChar (rest.tail.headD ' ')
      · rw [if_pos h2]; simp
      · rw [if_neg h2]; simp

theorem qpPass1_sorted_aux : ∀ (n : Nat) (s : PyStr), s.length ≤ n → ∀ bp,
    List.Sorted (· ≤ ·) (qpPass1 s bp) ∧ ∀ x ∈ qpPass1 s bp, bp ≤ x := by
  intro n
  induction n with
  | zero =>
    intro s hs bp
    have hnil : s = [] := List.eq_nil_of_length_eq_zero (Nat.le_zero.mp hs)
    subst hnil
    rw [qpPass1]
    refine ⟨List.sorted_singleton _, ?_⟩
    intro x hx
    rw [List.mem_singleton] at hx
    omega
  | succ n ih =>
    intro s hs bp
    cases s with
    | nil =>
      rw [qpPass1]
      refine ⟨List.sorted_singleton _, ?_⟩
      intro x hx
      rw [List.mem_singleton] at hx
      omega
    | cons c rest =>
      rw [qpPass1]
      by_cases h1 : c = '=' ∧ rest.head? = some '\n'
      · rw [if_pos h1]
        obtain ⟨hsort, hlb⟩ := ih rest.tail
          (by simp only [List.length_cons] at hs
              have := List.length_tail rest
              omega) bp
        refine ⟨?_, ?_⟩
        · rw [List.sorted_cons]
          refine ⟨?_, ?_⟩
          · intro x hx
            rcases List.mem_cons.mp hx with rfl | hx2
            · exact le_refl _
            · exact hlb x hx2
          · rw [List.sorted_cons]
            exact ⟨hlb, hsort⟩
        · intro x hx
          rcases List.mem_cons.mp hx with rfl | hx2
          · exact le_refl _
          · rcases List.mem_cons.mp hx2 with rfl | hx3
            · exact le_refl _
            · exact hlb x hx3
      · rw [if_neg h1]
        by_cases h2 : c = '=' ∧ 2 ≤ rest.length ∧
            isHexChar (rest.headD ' ') ∧ isHexChar (rest.tail.headD ' ')
        · rw [if_pos h2]
          obtain ⟨hsort, hlb⟩ := ih rest.tail.tail
            (by simp only [List.length_cons] at hs
                have h4 := List.length_tail rest
                have h5 := List.length_tail rest.tail
                omega) (bp + 1)
          have hlb' : ∀ x ∈ qpPass1 rest.tail.tail (bp + 1), bp ≤ x :=
            fun x hx => le_trans (by omega) (hlb x hx)
          refine ⟨?_, ?_⟩
          · rw [List.sorted_cons]
            refine ⟨?_, ?_⟩
            · intro x hx
              rcases List.mem_cons.mp hx with rfl | hx2
              · exact le_refl _
              · rcases List.mem_cons.mp hx2 with rfl | hx3
                · exact le_refl _
                · exact hlb' x hx3
            · rw [List.sorted_cons]
              refine ⟨?_, ?_⟩
              · intro x hx
                rcases List.mem_cons.mp hx with rfl | hx2
                · exact le_refl _
                · exact hlb' x hx2
              · rw [List.sorted_cons]
                exact ⟨hlb', hsort⟩
          · intro x hx
            rcases List.mem_cons.mp hx with rfl | hx2
            · exact le_refl _
            · rcases List.mem_cons.mp hx2 with rfl | hx3
              · exact le_refl _
              · rcases List.mem_cons.mp hx3 with rfl | hx4
                · exact le_refl _
                · exact hlb' x hx4
        · rw [if_neg h2]
          obtain ⟨hsort, hlb⟩ := ih rest
            (by simp only [List.length_cons] at hs; omega) (bp + 1)
          have hlb' : ∀ x ∈ qpPass1 rest (bp + 1), bp ≤ x :=
            fun x hx => le_trans (by omega) (hlb x hx)
          refine ⟨?_, ?_⟩
          · rw [List.sorted_cons]
            exact ⟨hlb', hsort⟩
          · intro x hx
            rcases List.mem_cons.mp hx with rfl | hx2
            · exact le_refl _
            · exact hlb' x hx2

/-- The table built by `_build_qp_offset_table` is nonempty and
non-decreasing, so a `qp_map` event built by the source satisfies the table
hypothesis of `WFEvents`. -/
theorem qp_offset_table_sorted (body : PyStr) (cs : Codec) :
    buildQpOffsetTable body cs ≠ [] ∧
      List.Sorted (· ≤ ·) (buildQpOffsetTable body cs) := by
  have hq := (qpPass1_sorted_aux body.length body (le_refl _) 0).1
  constructor
  · unfold buildQpOffsetTable
    rw [Ne, List.map_eq_nil]
    exact qpPass1_ne_nil body 0
  · unfold buildQpOffsetTable
    rw [List.Sorted] at hq ⊢
    rw [List.pairwise_map]
    refine hq.imp ?_
    intro x y hxy
    set dBytes := a2bQP (encStr asciiCodec body)
    set dStr := cs.dec dBytes
    rw [byteToCharTable_getD cs dStr dBytes.length _ (min_le_right _ _),
      byteToCharTable_getD cs dStr dBytes.length _ (min_le_right _ _)]
    unfold byteToCharSpec
    apply List.countP_mono_left
    intro j _
    simp only [decide_eq_true_eq]
    intro h
    omega

/-- C7: the function returned by `build_raw_to_normalized_offset_map` is
monotone non-decreasing: for every well-formed captured event list (events
sorted and pairwise disjoint, each with `start ≤ stop`, quoted-printable
tables nonempty and non-decreasing — which `_build_qp_offset_table` always
produces, see `qp_offset_table_sorted`) and all raw-stripped offsets
`a ≤ b`, `map_fn(a) ≤ map_fn(b)`. -/
theorem map_fn_monotone (events : List OffsetEvent) (hwf : WFEvents events)
    (a b : Nat) (hab : a ≤ b) : mapFn events a ≤ mapFn events b :=
  mapFnGo_monotone events 0 a b hwf hab

theorem map_fn_monotone_witness :
    mapFn [OffsetEvent.cte 2 5 3, OffsetEvent.body 10 20 4 none 0 10] 3 ≤
      mapFn [OffsetEvent.cte 2 5 3, OffsetEvent.body 10 20 4 none 0 10] 12 :=
  map_fn_monotone _
    (by
      refine ⟨?_, ?_⟩
      · refine List.Pairwise.cons ?_ (List.pairwise_singleton _ _)
        intro e he
        rw [List.mem_singleton] at he
        subst he
        exact (by decide : (5 : Nat) ≤ 10)
      · intro e he
        rcases List.mem_cons.mp he with rfl | he2
        · exact (by decide : (2 : Nat) ≤ 5)
        · rw [List.mem_singleton] at he2
          subst he2
          exact ⟨by decide, fun t ht => Option.noConfusion ht⟩)
    3 12 (by omega)

/-!
## Base64 round-trip (towards claim C4)
-/

theorem char_ofNat_toNat (n : Nat) (h : n < 0xD800) : (Char.ofNat n).toNat = n := by
  have hv : Nat.isValidChar n := Or.inl h
  simp [Char.ofNat, hv, Char.ofNatAux, Char.toNat, UInt32.toNat, UInt32.ofNat']

theorem map_ofNat_toNat (l : PyBytes) (h : ∀ b ∈ l, b < 128) :
    (l.map Char.ofNat).map Char.toNat = l := by
  rw [List.map_map]
  conv_rhs => rw [← List.map_id l]
  apply List.map_congr_left
  intro b hb
  simp only [Function.comp, id]
  exact char_ofNat_toNat b (by have := h b hb; omega)

theorem asciiSurrogate_map_ofNat (l : PyBytes) (h : ∀ b ∈ l, b < 128) :
    asciiSurrogate (l.map Char.ofNat) = l := by
  unfold asciiSurrogate
  rw [if_pos ?_]
  · exact map_ofNat_toNat l h
  · rw [List.all_eq_true]
    intro c hc
    rcases List.mem_map.mp hc with ⟨b, hb, rfl⟩
    have hb' := h b hb
    simp only [decide_eq_true_eq]
    rw [char_ofNat_toNat b (by omega)]
    omega

theorem b64DigitVal_b64Digit : ∀ n, n < 64 → b64DigitVal (b64Digit n) = some n := by decide

theorem b64Digit_props : ∀ n, n < 64 →
    (b64Digit n ≠ 61 ∧ b64Digit n ≠ 10 ∧ b64Digit n ≠ 13 ∧ b64Digit n < 128) := by decide

theorem b64decodeStrict_b64encode : ∀ (x : PyBytes), (∀ b ∈ x, b < 256) →
    b64decodeStrict (b64encode x) = some x
  | [], _ => by rw [b64encode, b64decodeStrict]
  | [b1], h => by
      have h1 : b1 < 256 := h b1 (by simp)
      have e1 := b64DigitVal_b64Digit (b1 / 4) (by omega)
      have e2 := b64DigitVal_b64Digit (b1 % 4 * 16) (by omega)
      rw [b64encode, b64decodeStrict, e1, e2]
      simp
      omega
  | [b1, b2], h => by
      have h1 : b1 < 256 := h b1 (by simp)
      have h2 : b2 < 256 := h b2 (by simp)
      have e1 := b64DigitVal_b64Digit (b1 / 4) (by omega)
      have e2 := b64DigitVal_b64Digit (b1 % 4 * 16 + b2 / 16) (by omega)
      have e3 := b64DigitVal_b64Digit (b2 % 16 * 4) (by omega)
      have ne3 := (b64Digit_props (b2 % 16 * 4) (by omega)).1
      rw [b64encode, b64decodeStrict, e1, e2]
      simp [e3, ne3]
      omega
  | b1 :: b2 :: b3 :: rest, h => by
      have h1 : b1 < 256 := h b1 (by simp)
      have h2 : b2 < 256 := h b2 (by simp)
      have h3 : b3 < 256 := h b3 (by simp)
      have e1 := b64DigitVal_b64Digit (b1 / 4) (by omega)
      have e2 := b64DigitVal_b64Digit (b1 % 4 * 16 + b2 / 16) (by omega)
      have e3 := b64DigitVal_b64Digit (b2 % 16 * 4 + b3 / 64) (by omega)
      have e4 := b64DigitVal_b64Digit (b3 % 64) (by omega)
      have ne3 := (b64Digit_props (b2 % 16 * 4 + b3 / 64) (by omega)).1
      have ne4 := (b64Digit_props (b3 % 64) (by omega)).1
      have ihr := b64decodeStrict_b64encode rest
        (fun b hb => h b (by simp [hb]))
      rw [b64encode, b64decodeStrict, e1, e2]
      simp [e3, e4, ne3, ne4, ihr]
      omega

theorem b64encode_all : ∀ (x : PyBytes), (∀ b ∈ x, b < 256) →
    ∀ c ∈ b64encode x, (c < 128 ∧ c ≠ 10 ∧ c ≠ 13)
  | [], _ => by
      rw [b64encode]
      intro c hc
      simp at hc
  | [b1], h => by
      have h1 : b1 < 256 := h b1 (by simp)
      have p1 := b64Digit_props (b1 / 4) (by omega)
      have p2 := b64Digit_props (b1 % 4 * 16) (by omega)
      rw [b64encode]
      intro c hc
      simp only [List.mem_cons, List.not_mem_nil, or_false] at hc
      rcases hc with rfl | rfl | rfl | rfl
      · exact ⟨p1.2.2.2, p1.2.1, p1.2.2.1⟩
      · exact ⟨p2.2.2.2, p2.2.1, p2.2.2.1⟩
      · exact ⟨by omega, by omega, by omega⟩
      · exact ⟨by omega, by omega, by omega⟩
  | [b1, b2], h => by
      have h1 : b1 < 256 := h b1 (by simp)
      have h2 : b2 < 256 := h b2 (by simp)
      have p1 := b64Digit_props (b1 / 4) (by omega)
      have p2 := b64Digit_props (b1 % 4 * 16 + b2 / 16) (by omega)
      have p3 := b64Digit_props (b2 % 16 * 4) (by omega)
      rw [b64encode]
      intro c hc
      simp only [List.mem_cons, List.not_mem_nil, or_false] at hc
      rcases hc with rfl | rfl | rfl | rfl
      · exact ⟨p1.2.2.2, p1.2.1, p1.2.2.1⟩
      · exact ⟨p2.2.2.2, p2.2.1, p2.2.2.1⟩
      · exact ⟨p3.2.2.2, p3.2.1, p3.2.2.1⟩
      · exact ⟨by omega, by omega, by omega⟩
  | b1 :: b2 :: b3 :: rest, h => by
      have h1 : b1 < 256 := h b1 (by simp)
      have h2 : b2 < 256 := h b2 (by simp)
      have h3 : b3 < 256 := h b3 (by simp)
      have p1 := b64Digit_props (b1 / 4) (by omega)
      have p2 := b64Digit_props (b1 % 4 * 16 + b2 / 16) (by omega)
      have p3 := b64Digit_props (b2 % 16 * 4 + b3 / 64) (by omega)
      have p4 := b64Digit_props (b3 % 64) (by omega)
      have ihr := b64encode_all rest (fun b hb => h b (by simp [hb]))
      rw [b64encode]
      intro c hc
      simp only [List.mem_cons] at hc
      rcases hc with rfl | rfl | rfl | rfl | hc
      · exact ⟨p1.2.2.2, p1.2.1, p1.2.2.1⟩
      · exact ⟨p2.2.2.2, p2.2.1, p2.2.2.1⟩
      · exact ⟨p3.2.2.2, p3.2.1, p3.2.2.1⟩
      · exact ⟨p4.2.2.2, p4.2.1, p4.2.2.1⟩
      · exact ihr c hc

theorem b64encode_length_mod4 : ∀ (x : PyBytes), (b64encode x).length % 4 = 0
  | [] => by rw [b64encode]; rfl
  | [_] => by rw [b64encode]; simp
  | [_, _] => by rw [b64encode]; simp
  | _ :: _ :: _ :: rest => by
      rw [b64encode]
      simp only [List.length_cons]
      have := b64encode_length_mod4 rest
      omega

theorem b64encode_append : ∀ (a b : PyBytes), a.length % 3 = 0 →
    b64encode (a ++ b) = b64encode a ++ b64encode b
  | [], b, _ => by rw [List.nil_append, b64encode, List.nil_append]
  | [_], _, h => by simp at h
  | [_, _], _, h => by simp at h
  | x :: y :: z :: rest, b, h => by
      have h' : rest.length % 3 = 0 := by
        simp only [List.length_cons] at h
        omega
      rw [List.cons_append, List.cons_append, List.cons_append,
        b64encode, b64encode, b64encode_append rest b h']
      simp

theorem encodebytes_all : ∀ (n : Nat) (x : PyBytes), x.length ≤ n →
    (∀ b ∈ x, b < 256) → ∀ c ∈ encodebytes x, c < 128 := by
  intro n
  induction n with
  | zero =>
    intro x hx hb c hc
    have : x = [] := List.eq_nil_of_length_eq_zero (Nat.le_zero.mp hx)
    subst this
    rw [encodebytes, if_pos rfl] at hc
    cases hc
  | succ n ih =>
    intro x hx hb c hc
    by_cases hnil : x = []
    · subst hnil
      rw [encodebytes, if_pos rfl] at hc
      cases hc
    · rw [encodebytes, if_neg hnil] at hc
      rcases List.mem_append.mp hc with hc1 | hc2
      · rcases List.mem_append.mp hc1 with hc3 | hc4
        · exact (b64encode_all _ (fun b hbm => hb b (List.take_subset _ _ hbm)) c hc3).1
        · rw [List.mem_singleton] at hc4
          omega
      · have hlen : (x.drop 57).length ≤ n := by
          rw [List.length_drop]
          have hpos : 0 < x.length := List.length_pos.mpr hnil
          omega
        exact ih (x.drop 57) hlen (fun b hbm => hb b (List.drop_subset _ _ hbm)) c hc2

theorem encodebytes_filter : ∀ (n : Nat) (x : PyBytes), x.length ≤ n →
    (∀ b ∈ x, b < 256) →
    (encodebytes x).filter (fun c => c ≠ 10 && c ≠ 13) = b64encode x := by
  intro n
  induction n with
  | zero =>
    intro x hx hb
    have : x = [] := List.eq_nil_of_length_eq_zero (Nat.le_zero.mp hx)
    subst this
    rw [encodebytes, if_pos rfl, b64encode]
    rfl
  | succ n ih =>
    intro x hx hb
    by_cases hnil : x = []
    · subst hnil
      rw [encodebytes, if_pos rfl, b64encode]
      rfl
    · rw [encodebytes, if_neg hnil, List.filter_append, List.filter_append]
      have hf1 : (b64encode (x.take 57)).filter (fun c => c ≠ 10 && c ≠ 13) =
          b64encode (x.take 57) := by
        rw [List.filter_eq_self]
        intro c hc
        have := b64encode_all (x.take 57)
          (fun b hbm => hb b (List.take_subset _ _ hbm)) c hc
        simp only [Bool.and_eq_true, decide_eq_true_eq]
        exact ⟨this.2.1, this.2.2⟩
      have hf2 : ([10] : PyBytes).filter (fun c => c ≠ 10 && c ≠ 13) = [] := rfl
      have hlen : (x.drop 57).length ≤ n := by
        rw [List.length_drop]
        have hpos : 0 < x.length := List.length_pos.mpr hnil
        omega
      rw [hf1, hf2, ih (x.drop 57) hlen (fun b hbm => hb b (List.drop_subset _ _ hbm)),
        List.append_nil]
      by_cases hle : x.length ≤ 57
      · rw [List.take_of_length_le hle, List.drop_eq_nil_of_le hle, b64encode,
          List.append_nil]
      · rw [← b64encode_append _ _ (by rw [List.length_take]; omega),
          List.take_append_drop]

theorem decodeB64_encodebytes (x : PyBytes) (hx : ∀ b ∈ x, b < 256) :
    decodeB64Payload (encodebytes x) = x := by
  have h1 := encodebytes_filter x.length x (le_refl _) hx
  have h2 := b64encode_length_mod4 x
  have h3 := b64decodeStrict_b64encode x hx
  unfold decodeB64Payload
  rw [h1]
  simp [h2, h3]

theorem decodeTransfer_b64_roundtrip (x : PyBytes) (hx : ∀ b ∈ x, b < 256) :
    decodeTransfer (("base64").toList)
      (PartPayload.str ((encodebytes x).map Char.ofNat)) = x := by
  unfold decodeTransfer
  rw [if_neg (by decide), if_pos rfl]
  show decodeB64Payload (asciiSurrogate ((encodebytes x).map Char.ofNat)) = x
  rw [asciiSurrogate_map_ofNat _ (encodebytes_all x.length x (le_refl _) hx)]
  exact decodeB64_encodebytes x hx

/-!
## Quoted-printable round-trip (towards claim C4)
-/

theorem crlfDetect_no_cr : ∀ (x : List Nat), 13 ∉ x → crlfDetect x = false
  | [], _ => rfl
  | a :: rest, h => by
      have ha : a ≠ 13 := fun e => h (by simp [e])
      have hr : 13 ∉ rest := fun e => h (by simp [e])
      rw [crlfDetect.eq_def]
      by_cases h10 : a = 10
      · simp [h10]
      · simp only [h10, if_false]
        cases rest with
        | nil => rfl
        | cons b rest' =>
          show (if b = 10 then a == 13 else crlfDetect (b :: rest')) = false
          by_cases hb : b = 10
          · simp [hb, ha]
          · rw [if_neg hb]
            exact crlfDetect_no_cr (b :: rest') hr

theorem a2bQP_cons_ne (b : Nat) (l : PyBytes) (h : b ≠ 61) :
    a2bQP (b :: l) = b :: a2bQP l := by
  rw [a2bQP.eq_def]
  simp only [h, if_false]

theorem a2bQP_soft (l : PyBytes) : a2bQP (61 :: 10 :: l) = a2bQP l := by
  rw [a2bQP.eq_def]
  simp

theorem hexUpFacts : ∀ n, n < 16 →
    (isHexByte (hexUp n) = true ∧ hexByteVal (hexUp n) = n ∧
     hexUp n ≠ 10 ∧ hexUp n ≠ 13 ∧ hexUp n ≠ 61 ∧ hexUp n < 128) := by decide

theorem a2bQP_quot (r1 r2 : Nat) (l : PyBytes) (h1 : isHexByte r1 = true)
    (h2 : isHexByte r2 = true) (n10 : r1 ≠ 10) (n13 : r1 ≠ 13) (n61 : r1 ≠ 61) :
    a2bQP (61 :: r1 :: r2 :: l) = (hexByteVal r1 * 16 + hexByteVal r2) :: a2bQP l := by
  rw [a2bQP.eq_def]
  simp [n10, n13, n61, h1, h2]

theorem a2bQP_render : ∀ (atoms : List QPAtom), (∀ a ∈ atoms, qpAtomOK a) →
    a2bQP ((atoms.map (renderQPAtom false)).flatten) = (atoms.map qpAtomBytes).flatten
  | [], _ => by
      simp only [List.map_nil, List.flatten_nil]
      rw [a2bQP.eq_def]
  | a :: atoms, h => by
      have ha : qpAtomOK a := h a (by simp)
      have hrest := a2bQP_render atoms (fun x hx => h x (by simp [hx]))
      cases a with
      | lit b =>
          simp only [List.map_cons, List.flatten_cons, renderQPAtom, qpAtomBytes]
          rw [List.singleton_append, a2bQP_cons_ne b _ ha.1, hrest]
          rfl
      | quot b =>
          have hb : b < 256 := ha
          have f1 := hexUpFacts (b / 16) (by omega)
          have f2 := hexUpFacts (b % 16) (by omega)
          simp only [List.map_cons, List.flatten_cons, renderQPAtom, qpAtomBytes]
          rw [List.cons_append, List.cons_append, List.cons_append, List.nil_append,
            a2bQP_quot _ _ _ f1.1 f2.1 f1.2.2.1 f1.2.2.2.1 f1.2.2.2.2.1, hrest,
            f1.2.1, f2.2.1]
          have : b / 16 * 16 + b % 16 = b := by omega
          rw [this]
          rfl
      | hardLF =>
          simp only [List.map_cons, List.flatten_cons, renderQPAtom, qpAtomBytes]
          rw [if_neg (by simp), List.singleton_append, a2bQP_cons_ne 10 _ (by omega), hrest]
          rfl
      | softLF =>
          simp only [List.map_cons, List.flatten_cons, renderQPAtom, qpAtomBytes]
          rw [if_neg (by simp), List.cons_append, List.cons_append, List.nil_append,
            a2bQP_soft, hrest]
          rfl

theorem retroQuote_bytes (out : List QPAtom) :
    (retroQuote out).map qpAtomBytes = out.map qpAtomBytes := by
  cases out with
  | nil => rfl
  | cons a out' =>
    cases a with
    | lit w =>
        by_cases h : (w == 32 || w == 9) = true
        · simp [retroQuote, h, qpAtomBytes]
        · simp [retroQuote, h]
    | quot _ => rfl
    | hardLF => rfl
    | softLF => rfl

theorem retroQuote_ok (out : List QPAtom) (h : ∀ a ∈ out, qpAtomOK a) :
    ∀ a ∈ retroQuote out, qpAtomOK a := by
  cases out with
  | nil => simpa [retroQuote] using h
  | cons a out' =>
    cases a with
    | lit w =>
        by_cases hw : (w == 32 || w == 9) = true
        · simp only [retroQuote, hw, if_pos]
          intro x hx
          rcases List.mem_cons.mp hx with rfl | hx'
          · show w < 256
            rcases Bool.or_eq_true_iff.mp hw with h32 | h9
            · have : w = 32 := by simpa using h32
              omega
            · have : w = 9 := by simpa using h9
              omega
          · exact h x (by simp [hx'])
        · simpa [retroQuote, hw] using h
    | quot _ => exact (by simpa [retroQuote] using h)
    | hardLF => exact (by simpa [retroQuote] using h)
    | softLF => exact (by simpa [retroQuote] using h)

theorem b2aQPGo_ok : ∀ (input : List Nat) (ll : Nat) (out : List QPAtom),
    (∀ b ∈ input, b < 256) → (∀ a ∈ out, qpAtomOK a) →
    ∀ a ∈ b2aQPGo input ll out, qpAtomOK a
  | [], ll, out, _, hout => by
      rw [b2aQPGo]
      intro a ha
      exact hout a (List.mem_reverse.mp ha)
  | b :: rest, ll, out, hin, hout => by
      have hb : b < 256 := hin b (by simp)
      have hrest : ∀ x ∈ rest, x < 256 := fun x hx => hin x (by simp [hx])
      rw [b2aQPGo]
      by_cases hq : quoteCond b ll rest.head? = true
      · rw [if_pos hq]
        by_cases hw : ll + 3 ≥ 76
        · rw [if_pos hw]
          refine b2aQPGo_ok rest 3 _ hrest ?_
          intro x hx
          rcases List.mem_cons.mp hx with rfl | hx'
          · exact hb
          rcases List.mem_cons.mp hx' with rfl | hx''
          · trivial
          · exact hout x hx''
        · rw [if_neg hw]
          refine b2aQPGo_ok rest (ll + 3) _ hrest ?_
          intro x hx
          rcases List.mem_cons.mp hx with rfl | hx'
          · exact hb
          · exact hout x hx'
      · rw [if_neg hq]
        have hb61 : b ≠ 61 := by
          intro e
          exact hq (by simp [e, quoteCond])
        have hb127 : b < 127 := by
          by_contra hc
          exact hq (by simp only [quoteCond]; simp; omega)
        by_cases h10 : b = 10
        · rw [if_pos h10]
          exact b2aQPGo_ok rest 0 _ hrest
            (fun x hx => by
              rcases List.mem_cons.mp hx with rfl | hx'
              · trivial
              · exact retroQuote_ok out hout x hx')
        · rw [if_neg h10]
          by_cases h13 : b = 13 ∧ rest.head? = some 10
          · rw [if_pos h13]
            exact b2aQPGo_ok rest.tail 0 _
              (fun x hx => hrest x (List.mem_of_mem_tail hx))
              (fun x hx => by
                rcases List.mem_cons.mp hx with rfl | hx'
                · trivial
                · exact retroQuote_ok out hout x hx')
          · rw [if_neg h13]
            by_cases hbreak : rest ≠ [] ∧ rest.head? ≠ some 10 ∧ ll + 1 ≥ 76
            · rw [if_pos hbreak]
              refine b2aQPGo_ok rest 1 _ hrest ?_
              intro x hx
              rcases List.mem_cons.mp hx with rfl | hx'
              · exact ⟨hb61, hb127⟩
              rcases List.mem_cons.mp hx' with rfl | hx''
              · trivial
              · exact hout x hx''
            · rw [if_neg hbreak]
              refine b2aQPGo_ok rest (ll + 1) _ hrest ?_
              intro x hx
              rcases List.mem_cons.mp hx with rfl | hx'
              · exact ⟨hb61, hb127⟩
              · exact hout x hx'
  termination_by input _ _ => input.length
  decreasing_by
    all_goals simp [List.length_tail]
    all_goals omega

theorem b2aQPGo_bytes : ∀ (input : List Nat) (ll : Nat) (out : List QPAtom),
    13 ∉ input →
    ((b2aQPGo input ll out).map qpAtomBytes).flatten =
      ((out.reverse.map qpAtomBytes)).flatten ++ input
  | [], ll, out, _ => by
      rw [b2aQPGo, List.append_nil]
  | b :: rest, ll, out, h13 => by
      have hb13 : b ≠ 13 := fun e => h13 (by simp [e])
      have hr13 : 13 ∉ rest := fun e => h13 (by simp [e])
      rw [b2aQPGo]
      by_cases hq : quoteCond b ll rest.head? = true
      · rw [if_pos hq]
        by_cases hw : ll + 3 ≥ 76
        · rw [if_pos hw, b2aQPGo_bytes rest 3 _ hr13]
          simp [qpAtomBytes]
        · rw [if_neg hw, b2aQPGo_bytes rest (ll + 3) _ hr13]
          simp [qpAtomBytes]
      · rw [if_neg hq]
        by_cases h10 : b = 10
        · rw [if_pos h10, b2aQPGo_bytes rest 0 _ hr13]
          subst h10
          simp [qpAtomBytes, retroQuote_bytes]
        · rw [if_neg h10, if_neg (fun hc => hb13 hc.1)]
          by_cases hbreak : rest ≠ [] ∧ rest.head? ≠ some 10 ∧ ll + 1 ≥ 76
          · rw [if_pos hbreak, b2aQPGo_bytes rest 1 _ hr13]
            simp [qpAtomBytes]
          · rw [if_neg hbreak, b2aQPGo_bytes rest (ll + 1) _ hr13]
            simp [qpAtomBytes]

theorem a2bQP_b2aQP (x : PyBytes) (h13 : 13 ∉ x) (hlt : ∀ b ∈ x, b < 256) :
    a2bQP (b2aQP x) = x := by
  unfold b2aQP
  rw [crlfDetect_no_cr x h13]
  rw [a2bQP_render _ (b2aQPGo_ok x 0 [] hlt (fun a ha => by cases ha))]
  rw [b2aQPGo_bytes x 0 [] h13]
  rfl

theorem b2aQP_all (x : PyBytes) (h13 : 13 ∉ x) (hlt : ∀ b ∈ x, b < 256) :
    ∀ c ∈ b2aQP x, c < 128 := by
  intro c hc
  unfold b2aQP at hc
  rw [crlfDetect_no_cr x h13] at hc
  rcases List.mem_flatten.mp hc with ⟨seg, hseg, hcseg⟩
  rcases List.mem_map.mp hseg with ⟨a, haMem, rfl⟩
  have hok := b2aQPGo_ok x 0 [] hlt (fun y hy => by cases hy) a haMem
  cases a with
  | lit b =>
      simp only [renderQPAtom] at hcseg
      rw [List.mem_singleton] at hcseg
      subst hcseg
      exact lt_trans hok.2 (by omega)
  | quot b =>
      have hb : b < 256 := hok
      have f1 := hexUpFacts (b / 16) (by omega)
      have f2 := hexUpFacts (b % 16) (by omega)
      simp only [renderQPAtom] at hcseg
      rcases List.mem_cons.mp hcseg with rfl | hcseg'
      · omega
      rcases List.mem_cons.mp hcseg' with rfl | hcseg''
      · exact f1.2.2.2.2.2
      rw [List.mem_singleton] at hcseg''
      subst hcseg''
      exact f2.2.2.2.2.2
  | hardLF =>
      simp only [renderQPAtom, if_neg (by simp : ¬ (false = true))] at hcseg
      rw [List.mem_singleton] at hcseg
      omega
  | softLF =>
      simp only [renderQPAtom, if_neg (by simp : ¬ (false = true))] at hcseg
      rcases List.mem_cons.mp hcseg with rfl | hcseg'
      · omega
      rw [List.mem_singleton] at hcseg'
      omega

theorem decodeTransfer_qp_roundtrip (x : PyBytes) (h13 : 13 ∉ x)
    (hlt : ∀ b ∈ x, b < 256) :
    decodeTransfer (("quoted-printable").toList)
      (PartPayload.str ((b2aQP x).map Char.ofNat)) = x := by
  unfold decodeTransfer
  rw [if_pos rfl]
  show a2bQP (asciiSurrogate ((b2aQP x).map Char.ofNat)) = x
  rw [asciiSurrogate_map_ofNat _ (b2aQP_all x h13 hlt)]
  exact a2bQP_b2aQP x h13 hlt

/-!
## Section lookup during reassembly (towards claim C4)
-/

theorem stripCR_of_no_cr (s : PyStr) (h : '\r' ∉ s) : stripCR s = s := by
  unfold stripCR
  rw [List.filter_eq_self]
  intro c hc
  simp only [decide_eq_true_eq]
  exact fun e => h (e ▸ hc)

theorem sectionTypeOf_ne_headers (ct : PyStr) :
    sectionTypeOf ct ≠ ("HEADERS").toList := by
  unfold sectionTypeOf
  split_ifs
  · decide
  · decide
  · intro he
    have hh := congrArg (fun l => l.head?) he
    simp at hh

mutual

theorem walkParts_filter_stable (ρ0 : List Nat) :
    ∀ (t : Part) (π : List Nat) (acc : List EmailSection),
    (∀ ρ : List Nat, π ++ ρ ≠ ρ0) →
    (walkParts t π acc).filter (fun s => s.mimePath = ρ0) =
      acc.filter (fun s => s.mimePath = ρ0)
  | .leaf ct cs cte hB payload, π, acc, h => by
      unfold walkParts
      split
      · have hne : π ≠ ρ0 := by
          have := h []
          rwa [List.append_nil] at this
        rw [List.filter_append]
        simp [leafSection, hne]
      · rfl
  | .multi ct parts, π, acc, h => by
      unfold walkParts
      exact walkPartsList_filter_stable ρ0 parts 0 π acc
        (fun k ρ _ => h (k :: ρ))

theorem walkPartsList_filter_stable (ρ0 : List Nat) :
    ∀ (ps : List Part) (i : Nat) (π : List Nat) (acc : List EmailSection),
    (∀ (k : Nat) (ρ : List Nat), i ≤ k → π ++ k :: ρ ≠ ρ0) →
    (walkPartsList ps i π acc).filter (fun s => s.mimePath = ρ0) =
      acc.filter (fun s => s.mimePath = ρ0)
  | [], _, _, acc, _ => by
      unfold walkPartsList
      rfl
  | p :: ps, i, π, acc, h => by
      unfold walkPartsList
      rw [walkPartsList_filter_stable ρ0 ps (i + 1) π _
        (fun k ρ hk => h k ρ (by omega))]
      exact walkParts_filter_stable ρ0 p (π ++ [i]) acc (fun ρ => by
        rw [List.append_assoc]
        exact h i ρ (le_refl i))

end

mutual

theorem walkParts_filter_found :
    ∀ (t : Part) (π : List Nat) (acc : List EmailSection) (ρ : List Nat)
      (ct : PyStr) (cs : Codec) (cte : PyStr) (hB : Bool) (payload : PartPayload),
      getPart t ρ = some (.leaf ct cs cte hB payload) →
      ct.take 5 = ("text/").toList →
      ∃ idx lbl,
        (walkParts t π acc).filter (fun s => s.mimePath = π ++ ρ) =
          acc.filter (fun s => s.mimePath = π ++ ρ) ++
            [⟨idx, sectionTypeOf ct, lbl,
              stripCR (cs.dec (decodeTransfer cte payload)), cs, cte, π ++ ρ⟩]
  | .leaf ct' cs' cte' hB' payload', π, acc, ρ, ct, cs, cte, hB, payload,
      hget, htext => by
      cases ρ with
      | nil =>
          rw [getPart] at hget
          injection hget with hget
          injection hget with h1 h2 h3 h4 h5
          subst h1; subst h2; subst h3; subst h4; subst h5
          unfold walkParts
          rw [if_pos htext, List.append_nil, List.filter_append]
          refine ⟨0, (leafSection acc ct' cs' cte' payload' π).label, ?_⟩
          have hf : List.filter (fun s => s.mimePath = π)
              [leafSection acc ct' cs' cte' payload' π] =
              [leafSection acc ct' cs' cte' payload' π] := by
            simp [leafSection]
          rw [hf]
          rfl
      | cons i ρ' =>
          rw [getPart] at hget
          exact absurd hget (by simp)
  | .multi mct parts, π, acc, ρ, ct, cs, cte, hB, payload, hget, htext => by
      cases ρ with
      | nil =>
          rw [getPart] at hget
          exact absurd hget (by simp)
      | cons i ρ' =>
          rw [getPart] at hget
          cases hc : parts.get? i with
          | none => rw [hc] at hget; exact absurd hget (by simp)
          | some child =>
              rw [hc] at hget
              unfold walkParts
              have := walkPartsList_filter_found parts 0 π acc i child ρ'
                ct cs cte hB payload hc hget htext
              simpa using this

theorem walkPartsList_filter_found :
    ∀ (ps : List Part) (i0 : Nat) (π : List Nat) (acc : List EmailSection)
      (j : Nat) (child : Part) (ρ : List Nat)
      (ct : PyStr) (cs : Codec) (cte : PyStr) (hB : Bool) (payload : PartPayload),
      ps.get? j = some child →
      getPart child ρ = some (.leaf ct cs cte hB payload) →
      ct.take 5 = ("text/").toList →
      ∃ idx lbl,
        (walkPartsList ps i0 π acc).filter (fun s => s.mimePath = π ++ (i0 + j) :: ρ) =
          acc.filter (fun s => s.mimePath = π ++ (i0 + j) :: ρ) ++
            [⟨idx, sectionTypeOf ct, lbl,
              stripCR (cs.dec (decodeTransfer cte payload)), cs, cte,
              π ++ (i0 + j) :: ρ⟩]
  | [], _, _, _, j, child, ρ, ct, cs, cte, hB, payload, hj, _, _ => by
      rw [List.get?_nil] at hj
      exact absurd hj (by simp)
  | p :: ps', i0, π, acc, j, child, ρ, ct, cs, cte, hB, payload, hj, hget,
      htext => by
      cases j with
      | zero =>
          rw [List.get?_cons_zero] at hj
          injection hj with hj
          subst hj
          have hfound := walkParts_filter_found p (π ++ [i0]) acc ρ
            ct cs cte hB payload hget htext
          have hpath : (π ++ [i0]) ++ ρ = π ++ (i0 + 0) :: ρ := by simp
          rw [hpath] at hfound
          rcases hfound with ⟨idx, lbl, hf⟩
          refine ⟨idx, lbl, ?_⟩
          unfold walkPartsList
          rw [walkPartsList_filter_stable (π ++ (i0 + 0) :: ρ) ps' (i0 + 1) π _
            (fun k ρ2 hk he => by
              have h2 := List.append_cancel_left he
              injection h2 with h3 _
              omega), hf]
      | succ j' =>
          rw [List.get?_cons_succ] at hj
          have hstep := walkPartsList_filter_found ps' (i0 + 1) π
            (walkParts p (π ++ [i0]) acc) j' child ρ ct cs cte hB payload
            hj hget htext
          have hpe : i0 + 1 + j' = i0 + (j' + 1) := by omega
          rw [hpe] at hstep
          rcases hstep with ⟨idx, lbl, hstep⟩
          refine ⟨idx, lbl, ?_⟩
          unfold walkPartsList
          rw [hstep]
          congr 1
          exact walkParts_filter_stable _ p (π ++ [i0]) acc (fun ρ2 he => by
            rw [List.append_assoc] at he
            have h2 := List.append_cancel_left he
            injection h2 with h3 _
            omega)

end

theorem sectionByPath_enum_map (l : List EmailSection) (ρ : List Nat)
    (pre : List EmailSection) (sec : EmailSection)
    (hf : l.filter (fun s => s.mimePath = ρ) = pre ++ [sec]) :
    ∃ k, sectionByPath (l.enum.map (fun p => { p.2 with index := p.1 + 1 })) ρ =
      some { sec with index := k + 1 } := by
  have h1 : (l.enum.map Prod.snd).filter
      (fun s => decide (s.mimePath = ρ)) = pre ++ [sec] := by
    rw [List.enum_map_snd]
    exact hf
  rw [List.filter_map] at h1
  have h2 := congrArg List.getLast? h1
  rw [List.getLast?_map, List.getLast?_concat] at h2
  cases hq : (l.enum.filter
      ((fun s => decide (s.mimePath = ρ)) ∘ Prod.snd)).getLast? with
  | none => rw [hq] at h2; exact absurd h2 (by simp)
  | some q =>
      rw [hq, Option.map_some'] at h2
      have hqs : q.2 = sec := Option.some.inj h2
      subst hqs
      refine ⟨q.1, ?_⟩
      unfold sectionByPath
      rw [List.filter_map, List.getLast?_map]
      show ((l.enum.filter
        ((fun s => decide (s.mimePath = ρ)) ∘ Prod.snd)).getLast?).map _ = _
      rw [hq, Option.map_some']

theorem bodySections_eq (raw : PyStr) (msg : Part) :
    (extractSections raw msg).filter
      (fun s => s.sectionType ≠ ("HEADERS").toList) =
      (walkParts msg [] []).enum.map (fun p => { p.2 with index := p.1 + 1 }) := by
  have hrw : extractSections raw msg =
      (⟨0, ("HEADERS").toList, ("Email Headers").toList, extractHeaders raw,
        utf8Codec, ("7bit").toList, []⟩ : EmailSection) ::
      (walkParts msg [] []).enum.map (fun p => { p.2 with index := p.1 + 1 }) := rfl
  rw [hrw, List.filter_cons, if_neg (by simp)]
  apply List.filter_eq_self.mpr
  intro s hs
  rcases List.mem_map.mp hs with ⟨p, hp, rfl⟩
  have h2 : p.2 ∈ extractBodySections msg := mem_of_mem_enum hp
  have h3 := walkParts_pres (fun t => t.sectionType ≠ ("HEADERS").toList)
    (fun acc ct cs cte payload path => sectionTypeOf_ne_headers ct)
    msg [] [] (fun t ht => absurd ht (List.not_mem_nil t)) p.2 h2
  simpa using h3

theorem lookupOK_root (raw : PyStr) (msg : Part)
    (hRT : ∀ s ∈ (extractSections raw msg).filter
      (fun s => s.sectionType ≠ ("HEADERS").toList), secRT s) :
    lookupOK ((extractSections raw msg).filter
      (fun s => s.sectionType ≠ ("HEADERS").toList)) msg [] := by
  intro ρ ct cs cte hB payload hget htext
  rcases walkParts_filter_found msg [] [] ρ ct cs cte hB payload hget htext with
    ⟨idx, lbl, hf⟩
  rw [List.filter_nil, List.nil_append] at hf
  obtain ⟨k, hsp⟩ := sectionByPath_enum_map (walkParts msg [] []) ([] ++ ρ) [] _
    (by rw [List.nil_append]; exact hf)
  rw [← bodySections_eq raw msg] at hsp
  refine ⟨_, hsp, rfl, rfl, rfl, ?_⟩
  apply hRT
  have hsp' := hsp
  unfold sectionByPath at hsp'
  exact List.mem_of_mem_filter (List.mem_of_mem_getLast? hsp')

theorem setPartPayload_leaf_eq (ct : PyStr) (cs : Codec) (cte : PyStr) (hB : Bool)
    (payload : PartPayload) (text : PyStr) (s : EmailSection) :
    setPartPayload (.leaf ct cs cte hB payload) text s =
    (if s.originalCTE = ("base64").toList then
      Part.leaf ct cs (("base64").toList) true
        (PartPayload.str ((encodebytes (encStr s.charset text)).map Char.ofNat))
    else if s.originalCTE = ("quoted-printable").toList then
      Part.leaf ct cs (("quoted-printable").toList) true
        (PartPayload.str ((b2aQP (encStr s.charset text)).map Char.ofNat))
    else Part.leaf ct cs (("8bit").toList) true
      (PartPayload.bytes (encStr s.charset text))) := rfl

theorem setPartPayload_extractPC (π : List Nat) (ct : PyStr) (cs : Codec)
    (cte : PyStr) (hB : Bool) (payload : PartPayload) (s : EmailSection)
    (hcont : s.content = stripCR (cs.dec (decodeTransfer cte payload)))
    (hcs : s.charset = cs) (hcte : s.originalCTE = cte) (hrt : secRT s) :
    extractPC (setPartPayload (.leaf ct cs cte hB payload) s.content s) π =
      extractPC (.leaf ct cs cte hB payload) π := by
  have hnoCR : '\r' ∉ s.content := by rw [hcont]; exact stripCR_no_cr _
  have hstrip : stripCR s.content = s.content := stripCR_of_no_cr _ hnoCR
  have hdec : cs.dec (encStr cs s.content) = s.content := by
    rw [← hcs]; exact hrt.1
  have h256 : ∀ b ∈ encStr cs s.content, b < 256 := by
    rw [← hcs]; exact hrt.2.1
  rw [setPartPayload_leaf_eq]
  by_cases hb64 : s.originalCTE = ("base64").toList
  · rw [if_pos hb64]
    unfold extractPC
    by_cases htext : ct.take 5 = ("text/").toList
    · rw [if_pos htext, if_pos htext, hcs,
        decodeTransfer_b64_roundtrip _ h256, hdec, hstrip, hcont]
    · rw [if_neg htext, if_neg htext]
  · rw [if_neg hb64]
    by_cases hqp : s.originalCTE = ("quoted-printable").toList
    · rw [if_pos hqp]
      have h13 : 13 ∉ encStr cs s.content := by rw [← hcs]; exact hrt.2.2 hqp
      unfold extractPC
      by_cases htext : ct.take 5 = ("text/").toList
      · rw [if_pos htext, if_pos htext, hcs,
          decodeTransfer_qp_roundtrip _ h13 h256, hdec, hstrip, hcont]
      · rw [if_neg htext, if_neg htext]
    · rw [if_neg hqp]
      unfold extractPC
      by_cases htext : ct.take 5 = ("text/").toList
      · rw [if_pos htext, if_pos htext, hcs]
        rw [show decodeTransfer (("8bit").toList)
            (PartPayload.bytes (encStr cs s.content)) = encStr cs s.content from by
          unfold decodeTransfer
          rw [if_neg (by decide), if_neg (by decide)]]
        rw [hdec, hstrip, hcont]
      · rw [if_neg htext, if_neg htext]

mutual

theorem walkDeid_extractPC :
    ∀ (t : Part) (π : List Nat) (sbp : List EmailSection),
      lookupOK sbp t π →
      extractPC (walkAndDeidentify sbp (fun _ => []) t π) π = extractPC t π
  | .leaf ct cs cte hB payload, π, sbp, hl => by
      rw [walkAndDeidentify]
      by_cases htext : ct.take 5 = ("text/").toList
      · rw [if_pos htext]
        obtain ⟨s, hsp, hcont, hcs, hcte, hrt⟩ :=
          hl [] ct cs cte hB payload (by rw [getPart]) htext
        rw [List.append_nil] at hsp
        rw [hsp]
        show extractPC (setPartPayload (.leaf ct cs cte hB payload)
          (if (([] : List Ann) ≠ []) then applyReplacements s.content []
           else s.content) s) π = _
        rw [if_neg (by simp)]
        exact setPartPayload_extractPC π ct cs cte hB payload s hcont hcs hcte hrt
      · rw [if_neg htext]
  | .multi ct parts, π, sbp, hl => by
      rw [walkAndDeidentify]
      rw [extractPC, extractPC]
      refine walkDeidList_extractPC parts 0 π sbp ?_
      intro j p hp
      intro ρ ct' cs' cte' hB' payload' hg ht
      obtain ⟨s, hsp, h1, h2, h3, h4⟩ := hl ((0 + j) :: ρ) ct' cs' cte' hB' payload'
        (by rw [getPart]; simp only [Nat.zero_add]; rw [hp]; exact hg) ht
      refine ⟨s, ?_, h1, h2, h3, h4⟩
      rw [List.append_assoc]
      exact hsp

theorem walkDeidList_extractPC :
    ∀ (ps : List Part) (i : Nat) (π : List Nat) (sbp : List EmailSection),
      (∀ j p, ps.get? j = some p → lookupOK sbp p (π ++ [i + j])) →
      extractPCList (walkDeidentifyList sbp (fun _ => []) ps i π) i π =
        extractPCList ps i π
  | [], _, _, _, _ => by rw [walkDeidentifyList]
  | p :: ps, i, π, sbp, h => by
      rw [walkDeidentifyList]
      rw [extractPCList, extractPCList]
      rw [walkDeid_extractPC p (π ++ [i]) sbp (by
        have := h 0 p (by rw [List.get?_cons_zero])
        simpa using this)]
      rw [walkDeidList_extractPC ps (i + 1) π sbp (fun j q hq => by
        have h2 := h (j + 1) q (by rw [List.get?_cons_succ]; exact hq)
        have he : i + (j + 1) = i + 1 + j := by omega
        rw [he] at h2
        exact h2)]

end

mutual

theorem walkDeid_skel :
    ∀ (t : Part) (π π' : List Nat) (sbp : List EmailSection) (abs : Nat → List Ann),
      skel (walkAndDeidentify sbp abs t π) π' = skel t π'
  | .leaf ct cs cte hB payload, π, π', sbp, abs => by
      rw [walkAndDeidentify]
      by_cases htext : ct.take 5 = ("text/").toList
      · rw [if_pos htext]
        cases hsp : sectionByPath sbp π with
        | none => rfl
        | some s =>
            show skel (setPartPayload (.leaf ct cs cte hB payload)
              (if ((abs s.index) ≠ []) then applyReplacements s.content (abs s.index)
               else s.content) s) π' = _
            rw [setPartPayload_leaf_eq]
            split_ifs <;> rfl
      · rw [if_neg htext]
  | .multi ct parts, π, π', sbp, abs => by
      rw [walkAndDeidentify, skel, skel]
      rw [walkDeidList_skel parts 0 π 0 π' sbp abs]

theorem walkDeidList_skel :
    ∀ (ps : List Part) (i : Nat) (π : List Nat) (i' : Nat) (π' : List Nat)
      (sbp : List EmailSection) (abs : Nat → List Ann),
      skelList (walkDeidentifyList sbp abs ps i π) i' π' = skelList ps i' π'
  | [], _, _, _, _, _, _ => by rw [walkDeidentifyList]
  | p :: ps, i, π, i', π', sbp, abs => by
      rw [walkDeidentifyList, skelList, skelList]
      rw [walkDeid_skel p (π ++ [i]) (π' ++ [i']) sbp abs,
        walkDeidList_skel ps (i + 1) π (i' + 1) π' sbp abs]

end

theorem deidentifyAndReassemble_leaf (raw : PyStr) (ct : PyStr) (cs : Codec)
    (cte : PyStr) (hB : Bool) (payload : PartPayload) (secs : List EmailSection) :
    deidentifyAndReassemble raw (.leaf ct cs cte hB payload) secs (fun _ => []) =
      (match secs.filter (fun s => s.sectionType ≠ ("HEADERS").toList) with
       | [] => Part.leaf ct cs cte hB payload
       | sec :: _ => setPartPayload (.leaf ct cs cte hB payload) sec.content sec) := rfl

/-- C4 counterexample: a `text/plain` leaf declared `ascii` whose payload is
the single character U+00E9.  Extraction decodes it (with `errors="replace"`)
to U+FFFD; reassembly re-encodes that content as `ascii`, turning it into
`?`, so re-extracting the reassembled message yields content `"?"` instead of
the original section's content — the decoded body content is changed even
with an empty span map, against the claim. -/
theorem reassemble_empty_spans_counterexample :
    extractPC
      (deidentifyAndReassemble []
        (Part.leaf (("text/plain").toList) asciiCodec (("8bit").toList) true
          (PartPayload.str [Char.ofNat 0xE9]))
        (extractSections []
          (Part.leaf (("text/plain").toList) asciiCodec (("8bit").toList) true
            (PartPayload.str [Char.ofNat 0xE9])))
        (fun _ => [])) [] ≠
    extractPC
      (Part.leaf (("text/plain").toList) asciiCodec (("8bit").toList) true
        (PartPayload.str [Char.ofNat 0xE9])) [] := by decide

/-- C4 (amended): `deidentify_and_reassemble` with an empty span map
preserves the MIME skeleton (paths, content types, container structure)
unconditionally, and preserves every text part's decoded, `\r`-stripped
content provided each extracted body section round-trips through its
charset: the charset decodes its own encoding of the section content back to
that content, the encoded bytes are in byte range, and (for a
quoted-printable part) the encoded content has no bare carriage return.
Without the round-trip hypothesis the content claim is false
(`reassemble_empty_spans_counterexample`). -/
theorem reassemble_empty_spans (raw : PyStr) (msg : Part) :
    skel (deidentifyAndReassemble raw msg (extractSections raw msg)
        (fun _ => [])) [] = skel msg [] ∧
    ((∀ s ∈ (extractSections raw msg).filter
        (fun s => s.sectionType ≠ ("HEADERS").toList), secRT s) →
      extractPC (deidentifyAndReassemble raw msg (extractSections raw msg)
        (fun _ => [])) [] = extractPC msg []) := by
  constructor
  · cases msg with
    | multi ct parts => exact walkDeid_skel (.multi ct parts) [] [] _ _
    | leaf ct cs cte hB payload =>
        rw [deidentifyAndReassemble_leaf]
        cases hfb : (extractSections raw (.leaf ct cs cte hB payload)).filter
            (fun s => s.sectionType ≠ ("HEADERS").toList) with
        | nil => rfl
        | cons sec rest =>
            show skel (setPartPayload (.leaf ct cs cte hB payload)
              sec.content sec) [] = _
            rw [setPartPayload_leaf_eq]
            split_ifs <;> rfl
  · intro hRT
    cases msg with
    | multi ct parts =>
        exact walkDeid_extractPC (.multi ct parts) [] _
          (lookupOK_root raw (.multi ct parts) hRT)
    | leaf ct cs cte hB payload =>
        by_cases htext : ct.take 5 = ("text/").toList
        · have hwp : walkParts (.leaf ct cs cte hB payload) [] [] =
              [leafSection [] ct cs cte payload []] := by
            unfold walkParts
            rw [if_pos htext]
            rfl
          have hbody : (extractSections raw (.leaf ct cs cte hB payload)).filter
              (fun s => s.sectionType ≠ ("HEADERS").toList) =
              [{ leafSection [] ct cs cte payload [] with index := 0 + 1 }] := by
            rw [bodySections_eq, hwp]
            rfl
          have hmem : ({ leafSection [] ct cs cte payload [] with index := 0 + 1 } :
              EmailSection) ∈
              (extractSections raw (.leaf ct cs cte hB payload)).filter
                (fun s => s.sectionType ≠ ("HEADERS").toList) := by
            rw [hbody]
            exact List.mem_cons_self _ _
          rw [deidentifyAndReassemble_leaf, hbody]
          show extractPC (setPartPayload (.leaf ct cs cte hB payload)
            ({ leafSection [] ct cs cte payload [] with index := 0 + 1 }).content
            { leafSection [] ct cs cte payload [] with index := 0 + 1 }) [] = _
          exact setPartPayload_extractPC [] ct cs cte hB payload _ rfl rfl rfl
            (hRT _ hmem)
        · have hwp : walkParts (.leaf ct cs cte hB payload) [] [] = [] := by
            unfold walkParts
            rw [if_neg htext]
          have hbody : (extractSections raw (.leaf ct cs cte hB payload)).filter
              (fun s => s.sectionType ≠ ("HEADERS").toList) = [] := by
            rw [bodySections_eq, hwp]
            rfl
          rw [deidentifyAndReassemble_leaf, hbody]

theorem reassemble_empty_spans_witness :
    (∀ s ∈ (extractSections (("A: b\n\nHi").toList)
        (Part.leaf (("text/plain").toList) asciiCodec (("7bit").toList) true
          (PartPayload.str (("Hi").toList)))).filter
        (fun s => s.sectionType ≠ ("HEADERS").toList), secRT s) ∧
    (skel (deidentifyAndReassemble (("A: b\n\nHi").toList)
        (Part.leaf (("text/plain").toList) asciiCodec (("7bit").toList) true
          (PartPayload.str (("Hi").toList)))
        (extractSections (("A: b\n\nHi").toList)
          (Part.leaf (("text/plain").toList) asciiCodec (("7bit").toList) true
            (PartPayload.str (("Hi").toList))))
        (fun _ => [])) [] =
      skel (Part.leaf (("text/plain").toList) asciiCodec (("7bit").toList) true
        (PartPayload.str (("Hi").toList))) [] ∧
    extractPC (deidentifyAndReassemble (("A: b\n\nHi").toList)
        (Part.leaf (("text/plain").toList) asciiCodec (("7bit").toList) true
          (PartPayload.str (("Hi").toList)))
        (extractSections (("A: b\n\nHi").toList)
          (Part.leaf (("text/plain").toList) asciiCodec (("7bit").toList) true
            (PartPayload.str (("Hi").toList))))
        (fun _ => [])) [] =
      extractPC (Part.leaf (("text/plain").toList) asciiCodec (("7bit").toList) true
        (PartPayload.str (("Hi").toList))) []) :=
  ⟨by decide,
    (reassemble_empty_spans (("A: b\n\nHi").toList)
      (Part.leaf (("text/plain").toList) asciiCodec (("7bit").toList) true
        (PartPayload.str (("Hi").toList)))).1,
    (reassemble_empty_spans (("A: b\n\nHi").toList)
      (Part.leaf (("text/plain").toList) asciiCodec (("7bit").toList) true
        (PartPayload.str (("Hi").toList)))).2 (by decide)⟩

end EmailDeid
